import Mathlib

/-!
Shallow embedding of the go-gcstats core (package gcstats) and proofs of the
specification claims about it.

Conventions used throughout:
* Go `int64` / `int` values are embedded as `ℤ` (all arithmetic in the source
  is exact integer arithmetic on nanosecond counts, cycle ordinals, etc.).
* Go `float64` values are embedded as `ℚ`; the claims under verification are
  stated by the spec "in exact real arithmetic", and every float computation
  in the verified core is a field computation (+, -, *, /) on values derived
  from integers, so `ℚ` is an exact model of it.
* Go division by zero yields NaN/Inf; in `ℚ` it yields 0.  Every theorem below
  either carries hypotheses ruling division by zero out, or is about a code
  path where the divisor is provably nonzero.
* Go panics (`Phase.End` on an unknown duration, out-of-range indexing) are
  modelled by `Option` on the public accessor `Phase.End`, and by total
  functions plus wellformedness hypotheses inside the engine code, where the
  Go code is only ever executed on wellformed logs.
-/

namespace GcStatsModel

/-- Kind of a GC phase (source: gcstats.go, `PhaseKind` constants).  The
integer ordinal order of the Go constants is the constructor order here. -/
inductive PhaseKind where
  | PhaseSweepTerm
  | PhaseScan
  | PhaseInstallWB
  | PhaseMark
  | PhaseMarkTerm
  | PhaseSweep
  | PhaseMultiple
deriving DecidableEq, Repr

/-- A GC phase (source: gcstats.go, `type Phase`).  The phase spans
nanoseconds [Begin, Begin+Duration).  If absolute times are unknown, Begin is
0 and Duration may be -1. -/
structure Phase where
  Begin : ℤ
  Duration : ℤ
  Kind : PhaseKind
  N : ℤ
  Gomaxprocs : ℤ
  GCProcs : ℚ
  STW : Bool
deriving DecidableEq, Repr

instance : Inhabited Phase := ⟨⟨0, 0, .PhaseSweepTerm, 0, 0, 0, false⟩⟩

/-- The public accessor `Phase.End()` (source: gcstats.go).  In Go it returns
`p.Begin + p.Duration` and panics when `p.Duration == -1`; the panic is
modelled by `none`. -/
def Phase.End (p : Phase) : Option ℤ :=
  if p.Duration = -1 then none else some (p.Begin + p.Duration)

/-- Total variant of `Phase.End()` used inside the engine embedding, where the
engine only runs on logs with known durations (see the wellformedness
hypotheses of the theorems). -/
def endT (p : Phase) : ℤ := p.Begin + p.Duration

/-- The parsed artifact (source: gcstats.go, `type GcStats`). -/
structure GcStats where
  log : List Phase
  n : ℤ
  progTimes : Bool
deriving DecidableEq, Repr

/-- Source: gcstats.go, `HaveProgTimes()`. -/
def GcStats.HaveProgTimes (s : GcStats) : Bool := s.progTimes

/-- A point of a step function (source: edges.go, `type edge`): at `x` the
function steps to value `y` until the next edge, and additionally at `x` sits
a Dirac delta of mass `dirac`. -/
structure edge where
  x : ℚ
  y : ℚ
  dirac : ℚ
deriving DecidableEq, Repr

/-- A uniform distribution over [l, r] scaled to total mass `area`
(source: mud.go, `type uniform`).  If l = r it is a Dirac delta. -/
structure uniform where
  l : ℚ
  r : ℚ
  area : ℚ
deriving DecidableEq, Repr

/-- Step 1 of `uniformSumToEdges` (source: edges.go): each input becomes
delta edges recording height changes, `{l, +h, 0}` and `{r, -h, 0}` with
`h = area/(r-l)` for a wide uniform, `{l, 0, area}` for a point mass. -/
def uniformDeltas (us : List uniform) : List edge :=
  us.flatMap fun u =>
    if u.l = u.r then [⟨u.l, 0, u.area⟩]
    else [⟨u.l, u.area / (u.r - u.l), 0⟩, ⟨u.r, -(u.area / (u.r - u.l)), 0⟩]

/-- Step 2 of `uniformSumToEdges`: sort the delta edges by `x`.  The Go code
uses `sort.Sort` with the `edges.Less` comparison `e[i].x < e[j].x`; the order
of equal-`x` entries is irrelevant because the next step merges them by
summing, so any sort by `x` is an exact model.  We use insertion sort. -/
def sortDeltas (ds : List edge) : List edge :=
  ds.insertionSort fun a b => a.x ≤ b.x

/-- Step 3 of `uniformSumToEdges`: the in-place merge loop of edges.go.  `cur`
is the entry being accumulated at `deltas[out]`; an incoming entry with the
same `x` is summed into it, a new `x` commits `cur` unless its `y` and `dirac`
are both zero (in which case it is overwritten).  The final accumulated entry
is always emitted (the Go loop never re-checks it). -/
def mergeRun (cur : edge) : List edge → List edge
  | [] => [cur]
  | e :: rest =>
    if e.x ≠ cur.x then
      if cur.y ≠ 0 ∨ cur.dirac ≠ 0 then cur :: mergeRun e rest
      else mergeRun e rest
    else mergeRun ⟨cur.x, cur.y + e.y, cur.dirac + e.dirac⟩ rest

/-- Step 4 of `uniformSumToEdges`: convert height deltas to absolute heights
by a running sum starting at `h`. -/
def toHeights (h : ℚ) : List edge → List edge
  | [] => []
  | d :: rest => ⟨d.x, h + d.y, d.dirac⟩ :: toHeights (h + d.y) rest

/-- Source: edges.go, `uniformSumToEdges`. -/
def uniformSumToEdges (us : List uniform) : List edge :=
  if us = [] then [⟨0, 0, 0⟩]
  else
    match sortDeltas (uniformDeltas us) with
    | [] => []
    | d :: rest => toHeights 0 (mergeRun d rest)

/-! ### Utilization primitives (source: mud.go) -/

/-- The accumulation loop of `muInWindow` (source: mud.go): scans the log,
skipping phases that end before `b`, stopping at the first phase beginning at
or after `e`, and accumulating `(gcNS, totalNS)` over the overlap of each
remaining phase with `[b, e)`.  Addition on `ℚ` is exact, so accumulating by
recursion gives the same sums as the Go loop. -/
def muScan (b e : ℤ) : List Phase → ℚ × ℚ
  | [] => (0, 0)
  | p :: rest =>
    if endT p < b then muScan b e rest
    else if e ≤ p.Begin then (0, 0)
    else
      let pbegin := max b p.Begin
      let pend := min e (endT p)
      let pdur := pend - pbegin
      let gcprocs : ℚ := if p.STW then (p.Gomaxprocs : ℚ) else p.GCProcs
      let s := muScan b e rest
      (s.1 + gcprocs * (pdur : ℚ), s.2 + ((p.Gomaxprocs * pdur : ℤ) : ℚ))

/-- Source: mud.go, `muInWindow(begin, end, log)`: mutator utilization in the
window `[b, e)`; if `b = e` the window is widened to `[b, b+1)`. -/
def muInWindow (b e : ℤ) (log : List Phase) : ℚ :=
  let e := if b = e then e + 1 else e
  let s := muScan b e log
  (s.2 - s.1) / s.2

/-! ### Summary aggregations (source: gcstats.go) -/

/-- The join step of `Stops()` (source: gcstats.go): the previous accumulated
STW phase absorbs the next STW phase; durations add, `GCProcs` is combined
with the weight `f = dur1/(dur1+dur2)`, and differing kinds become
`PhaseMultiple`. -/
def joinPhase (prev p : Phase) : Phase :=
  let dur1 := prev.Duration
  let dur2 := p.Duration
  let f : ℚ := (dur1 : ℚ) / ((dur1 : ℚ) + (dur2 : ℚ))
  { prev with
    GCProcs := prev.GCProcs * f + p.GCProcs * (1 - f)
    Duration := dur1 + dur2
    Kind := if prev.Kind ≠ p.Kind then .PhaseMultiple else prev.Kind }

/-- The scanning loop of `Stops()` (source: gcstats.go).  The Go loop keeps a
`join` flag and mutates the last element of its output slice; here the
currently accumulating STW phase is carried as an `Option` (`some cur` iff
`join` is true, with `cur` the last output element) and committed when a
non-STW phase or the end of the log is reached. -/
def stopsAux : Option Phase → List Phase → List Phase
  | none, [] => []
  | some cur, [] => [cur]
  | none, p :: rest => if p.STW then stopsAux (some p) rest else stopsAux none rest
  | some cur, p :: rest =>
    if p.STW then stopsAux (some (joinPhase cur p)) rest
    else cur :: stopsAux none rest

/-- Source: gcstats.go, `Stops()`. -/
def GcStats.Stops (s : GcStats) : List Phase := stopsAux none s.log

/-- Source: gcstats.go, `MaxPause()`. -/
def GcStats.MaxPause (s : GcStats) : ℤ :=
  s.Stops.foldl (fun m p => if m < p.Duration then p.Duration else m) 0

/-! ### MMU engine (source: mud.go, `MMU`) -/

/-- The `leftIdx` advance loop inside `MMU` (source: mud.go):
`for s.log[leftIdx].End() < begin { leftIdx++ }`.  The Go loop panics if it
runs past the end of the log; that cannot happen on the wellformed logs of the
theorems below, and the model then simply returns `log.length`. -/
def advanceLt (log : List Phase) (b : ℤ) (li : Nat) : Nat :=
  if h : li < log.length then
    if endT log[li] < b then advanceLt log b (li + 1) else li
  else li
termination_by log.length - li

/-- The main loop of `MMU` (source: mud.go), iterating `i` over the phase
indices with the monotone `leftIdx` cursor `li` and the running minimum `mmu`.
For each phase it probes the window starting at `phase.Begin` (if it fits
before the log's last end) and the window ending at `phase.End()` (if it fits
after the log's first begin). -/
def mmuLoop (log : List Phase) (w : ℤ) (i li : Nat) (mmu : ℚ) : ℚ :=
  if h : i < log.length then
    let phase := log[i]
    let mmu1 :=
      if phase.Begin + w ≤ endT (log.getLastD default)
      then min mmu (muInWindow phase.Begin (phase.Begin + w) (log.drop i))
      else mmu
    let b2 := endT phase - w
    if (log.headD default).Begin ≤ b2 then
      let li2 := advanceLt log b2 li
      mmuLoop log w (i + 1) li2 (min mmu1 (muInWindow b2 (endT phase) (log.drop li2)))
    else
      mmuLoop log w (i + 1) li mmu1
  else mmu
termination_by log.length - i

/-- Source: mud.go, `MMU(windowNS)`, after the `requireProgTimes` check
(which is modelled by `GcStats.MMURun`). -/
def GcStats.MMU (s : GcStats) (windowNS : ℤ) : ℚ :=
  if windowNS ≤ 0 then 0
  else mmuLoop s.log windowNS 0 0 1

/-- `MMU` including the `requireProgTimes` fail-fast check (source: mud.go):
the Go method panics when the trace has no program times; the panic is
modelled by `none`. -/
def GcStats.MMURun (s : GcStats) (windowNS : ℤ) : Option ℚ :=
  if s.HaveProgTimes then some (s.MMU windowNS) else none

/-! ### MUD engine (source: mud.go) -/

/-- Source: mud.go, `type MUD`. -/
structure MUD where
  WindowNS : ℤ
  edges : List edge
  csums : List ℚ
deriving DecidableEq, Repr

instance : Inhabited edge := ⟨⟨0, 0, 0⟩⟩

/-- The phase-index advance loops inside `MutatorUtilizationDistribution`
(source: mud.go): `for s.log[idx].End() <= v { idx++ }`.  Like `advanceLt`,
running past the end of the log is a Go panic, modelled by returning
`log.length`. -/
def advanceLe (log : List Phase) (v : ℤ) (i : Nat) : Nat :=
  if h : i < log.length then
    if endT log[i] ≤ v then advanceLe log v (i + 1) else i
  else i
termination_by log.length - i

/-- `log[i].End()` with Go's panic on an out-of-range index replaced by a
default value (unreachable on the wellformed logs of the theorems below). -/
def phaseEndAt (log : List Phase) (i : Nat) : ℤ := endT (log.getD i default)

/-- The sliding-window loop of `MutatorUtilizationDistribution` (source:
mud.go): from `b = first` while `b < lastBegin`, advance the two phase
cursors, emit one scaled uniform per linear segment, and slide by the
segment's duration.  The Go `for` loop has no fuel; on the wellformed logs of
the theorems below every iteration advances `b` by at least 1, so any
`fuel ≥ lastBegin - b + 1` computes the loop exactly (otherwise the Go loop
would never terminate or would panic in an advance loop). -/
def mudLoop (log : List Phase) (w first lastBegin : ℤ) :
    Nat → ℤ → Nat → Nat → List uniform
  | 0, _, _, _ => []
  | fuel + 1, b, bp, ep =>
    if b < lastBegin then
      let e := b + w
      let bp2 := advanceLe log b bp
      let ep2 := advanceLe log e ep
      let dur := min (phaseEndAt log bp2 - b) (phaseEndAt log ep2 - e)
      let lutil := muInWindow b e (log.drop bp2)
      let rutil := muInWindow (b + dur) (e + dur) (log.drop bp2)
      let rutil := if w = 0 then lutil else rutil
      let lr := if rutil < lutil then (rutil, lutil) else (lutil, rutil)
      ⟨lr.1, lr.2, (dur : ℚ) / ((lastBegin - first : ℤ) : ℚ)⟩ ::
        mudLoop log w first lastBegin fuel (b + dur) bp2 ep2
    else []

/-- The cumulative-sum computation of `MutatorUtilizationDistribution`
(source: mud.go): `csums[i+1] = csums[i] + edges[i].y*w + edges[i].dirac`
with `w = edges[i+1].x - edges[i].x` and `csums[0] = 0` (here the starting
accumulator `c`). -/
def csumsOf (c : ℚ) : List edge → List ℚ
  | [] => []
  | [_] => [c]
  | e1 :: e2 :: rest => c :: csumsOf (c + e1.y * (e2.x - e1.x) + e1.dirac) (e2 :: rest)

/-- Source: mud.go, `MutatorUtilizationDistribution(windowNS)`, after the
`requireProgTimes` check (which is modelled by `GcStats.MUDRun`).  On an
empty log the Go code returns `&MUD{edges: {{0,0,1}}, csums: {0}}` with the
`WindowNS` field left at its zero value. -/
def GcStats.MutatorUtilizationDistribution (s : GcStats) (windowNS : ℤ) : MUD :=
  if s.log = [] then ⟨0, [⟨0, 0, 1⟩], [0]⟩
  else
    let first := (s.log.headD default).Begin
    let last := endT (s.log.getLastD default)
    let w := min windowNS (last - first)
    let lastBegin := last - w
    let addends := mudLoop s.log w first lastBegin ((lastBegin - first).toNat + 1) first 0 0
    let addends :=
      if first = lastBegin
      then addends ++ [⟨muInWindow first last s.log, muInWindow first last s.log, 1⟩]
      else addends
    let edges := uniformSumToEdges addends
    ⟨w, edges, csumsOf 0 edges⟩

/-- `MutatorUtilizationDistribution` including the `requireProgTimes`
fail-fast check (source: mud.go); the panic is modelled by `none`. -/
def GcStats.MUDRun (s : GcStats) (windowNS : ℤ) : Option MUD :=
  if s.HaveProgTimes then some (s.MutatorUtilizationDistribution windowNS) else none

/-- Go's `sort.Search(n, f)` binary-search loop (source: Go standard
library, used by `CDF` and `InvCDF`): invariant-based binary search returning
the smallest index in `[i, j)` at which `f` is true (assuming `f`
monotone), exactly as the Go loop computes it. -/
def searchLoop (f : Nat → Bool) (i j : Nat) : Nat :=
  if h : i < j then
    if f ((i + j) / 2) then searchLoop f i ((i + j) / 2)
    else searchLoop f ((i + j) / 2 + 1) j
  else i
termination_by j - i
decreasing_by all_goals omega

/-- Go's `sort.Search(n, f)`. -/
def sortSearch (n : Nat) (f : Nat → Bool) : Nat := searchLoop f 0 n

/-- Source: mud.go, `MUD.CDF(util)`. -/
def MUD.CDF (d : MUD) (util : ℚ) : ℚ :=
  let righti := sortSearch d.edges.length fun n => decide (util < (d.edges.getD n default).x)
  if righti = 0 then 0
  else
    let left := d.edges.getD (righti - 1) default
    d.csums.getD (righti - 1) 0 + left.dirac + left.y * (util - left.x)

/-- Source: mud.go, `MUD.InvCDF(pctile)`. -/
def MUD.InvCDF (d : MUD) (pctile : ℚ) : ℚ :=
  if pctile ≤ 0 then (d.edges.headD default).x
  else if 1 ≤ pctile then (d.edges.getLastD default).x
  else
    let righti := sortSearch d.csums.length fun n => decide (pctile < d.csums.getD n 0)
    if righti = 0 then 0
    else
      let left := d.edges.getD (righti - 1) default
      let cl := d.csums.getD (righti - 1) 0
      if pctile < cl + left.dirac then left.x
      else (pctile - cl - left.dirac) / left.y + left.x

/-! ### Trace parser (source: parse.go)

The parser's regular-expression and string-splitting layer extracts integer
and float fields from each matched line; that textual layer is not modelled.
A `LineRec` is the result of that extraction for one recognized trace line:
the numeric fields exactly as the Go code has them after `atoi`/`atof` and
unit conversion (`begin` and the clock/cpu entries already converted to
nanosecond `int64`s, with each cpu slash-list already summed, as done while
scanning).  `other` stands for a line matching neither format (skipped). -/
inductive LineRec where
  | gc14 (n stop sweepTerm markTerm shrink : ℤ) (beginOpt : Option ℤ)
  | gc15 (n begin gomaxprocs : ℤ) (clock cpu : List ℤ)
  | other
deriving DecidableEq, Repr

/-- Typed model of the `error` values produced by `NewFromLog` and
`phasesFromLog15` (source: parse.go).  `traceBackward deltaMs prevN newN`
models `fmt.Errorf("GC trace goes backward %dms between cycles %d and %d",
delta/time.Millisecond, prev.N, phases[0].N)`. -/
inductive ParseError where
  | badClockCount (n : ℤ)
  | badCPUCount (n : ℤ)
  | traceBackward (deltaMs prevN newN : ℤ)
deriving DecidableEq, Repr

/-- The begin-time accumulation of `phasesFromLog14` (source: parse.go):
`phases[i].Begin += begin; begin += phases[i].Duration`. -/
def addBegins (b : ℤ) : List Phase → List Phase
  | [] => []
  | p :: rest => { p with Begin := p.Begin + b } :: addBegins (b + p.Duration) rest

/-- Source: parse.go, `phasesFromLog14`: three phases per Go 1.4 cycle
(SweepTerm, MarkTerm and an open Sweep), with absolute begins added when the
optional `@T` field was present; the returned flag is `haveBegin`. -/
def phasesFromLog14 (n stop sweepTerm markTerm shrink : ℤ) (beginOpt : Option ℤ) :
    List Phase × Bool :=
  let phases : List Phase :=
    [⟨0, (stop + sweepTerm) * 1000, .PhaseSweepTerm, n, 1, 1, true⟩,
     ⟨0, (markTerm + shrink) * 1000, .PhaseMarkTerm, n, 1, 1, true⟩,
     ⟨0, -1, .PhaseSweep, n, 1, 0, false⟩]
  match beginOpt with
  | none => (phases, false)
  | some b => (addBegins b phases, true)

/-- The per-phase gc_procs computation of `phasesFromLog15` (source:
parse.go): `cpu[i]/clock[i]` when `clock[i] > 0`, else `gomaxprocs` for a
stop-the-world phase and 0 otherwise. -/
def gc15Procs (clock cpu gomaxprocs : ℤ) (stw : Bool) : ℚ :=
  if clock = 0 then (if stw then (gomaxprocs : ℚ) else 0)
  else (cpu : ℚ) / (clock : ℚ)

/-- The five named phase kinds of a Go 1.5 cycle, in emission order
(source: parse.go). -/
def gc15Kinds : List PhaseKind :=
  [.PhaseSweepTerm, .PhaseScan, .PhaseInstallWB, .PhaseMark, .PhaseMarkTerm]

/-- The phase-construction loop of `phasesFromLog15` (source: parse.go):
`now` advances by the clock value of each emitted phase. -/
def build15 (cycleN gomaxprocs : ℤ) (now : ℤ) :
    List (PhaseKind × ℤ × ℤ) → List Phase
  | [] => []
  | (kind, ck, cp) :: rest =>
    let stw := kind = PhaseKind.PhaseSweepTerm ∨ kind = PhaseKind.PhaseMarkTerm
    ⟨now, ck, kind, cycleN, gomaxprocs, gc15Procs ck cp gomaxprocs (decide stw), decide stw⟩ ::
      build15 cycleN gomaxprocs (now + ck) rest

/-- Source: parse.go, `phasesFromLog15`: after the five named phases comes
the open Sweep phase beginning where the clock accumulation ended.  The
length checks model `"unexpected number of clock times"` and
`"unexpected number of cpu times"`. -/
def phasesFromLog15 (n begin gomaxprocs : ℤ) (clock cpu : List ℤ) :
    Except ParseError (List Phase) :=
  if clock.length ≠ 5 then .error (.badClockCount n)
  else if cpu.length ≠ 5 then .error (.badCPUCount n)
  else
    let named := build15 n gomaxprocs begin (gc15Kinds.zip (clock.zip cpu))
    .ok (named ++ [⟨begin + clock.sum, -1, .PhaseSweep, n, gomaxprocs, 0, false⟩])

/-- Source: parse.go, `shiftPhases(phases, delta)`. -/
def shiftPhases (phases : List Phase) (delta : ℤ) : List Phase :=
  phases.map fun p => { p with Begin := p.Begin + delta }

/-- The state of `NewFromLog`'s scan loop (source: parse.go): the
accumulated `log`, the cycle count `n` and the running `haveBegin` flag. -/
structure ParserState where
  log : List Phase
  n : ℤ
  haveBegin : Bool
deriving DecidableEq, Repr

/-- The field extraction step of `NewFromLog`'s loop body (source: parse.go):
which phase list a line contributes, plus the line's `haveBegin1` (always
true for a Go 1.5 line, which carries `@T`; irrelevant for a skipped line). -/
def extractPhases : LineRec → Except ParseError (List Phase × Bool)
  | .other => .ok ([], true)
  | .gc14 n stop sweepTerm markTerm shrink beginOpt =>
    .ok (phasesFromLog14 n stop sweepTerm markTerm shrink beginOpt)
  | .gc15 n begin gomaxprocs clock cpu =>
    match phasesFromLog15 n begin gomaxprocs clock cpu with
    | .error e => .error e
    | .ok phases => .ok (phases, true)

/-- The log-append step of `NewFromLog`'s loop body (source: parse.go): skip
an empty phase list; otherwise, when absolute times are known and the last
logged phase is still open, close it against the new cycle's begin, repairing
a rounding overlap of at most 5ms by shifting the new phases forward by
`delta+1` ns (and failing with `traceBackward` past 5ms); then append and
count the cycle. -/
def appendCycle (st : ParserState) (phases : List Phase) : Except ParseError ParserState :=
  match phases with
  | [] => .ok st
  | first :: _ =>
    let closed : Except ParseError (List Phase × List Phase) :=
      if st.haveBegin ∧ (st.log.getLastD default).Duration = -1 ∧ st.log ≠ [] then
        let prev := st.log.getLastD default
        let d := first.Begin - prev.Begin
        if d < 0 then
          let delta := -d
          if 5000000 < delta then
            .error (.traceBackward (delta / 1000000) prev.N first.N)
          else
            .ok (st.log.dropLast ++ [{ prev with Duration := d + (delta + 1) }],
                 shiftPhases phases (delta + 1))
        else
          .ok (st.log.dropLast ++ [{ prev with Duration := d }], phases)
      else .ok (st.log, phases)
    match closed with
    | .error e => .error e
    | .ok (log, phases) => .ok ⟨log ++ phases, st.n + 1, st.haveBegin⟩

/-- One iteration of `NewFromLog`'s scan loop (source: parse.go): extract the
line's phases (propagating a Go 1.5 parse error), AND `haveBegin` with the
line's flag when the line contributed phases, then append. -/
def processRecord (st : ParserState) (rec : LineRec) : Except ParseError ParserState :=
  match extractPhases rec with
  | .error e => .error e
  | .ok (phases, hb1) =>
    let hb := if phases.length ≠ 0 then st.haveBegin && hb1 else st.haveBegin
    appendCycle ⟨st.log, st.n, hb⟩ phases

/-- `NewFromLog`'s scan loop over the recognized lines (source: parse.go). -/
def processAll (st : ParserState) : List LineRec → Except ParseError ParserState
  | [] => .ok st
  | rec :: rest =>
    match processRecord st rec with
    | .error e => .error e
    | .ok st2 => processAll st2 rest

/-- The final cleanup of `NewFromLog` (source: parse.go): remove the
unterminated end phase. -/
def finishLog (log : List Phase) : List Phase :=
  if (log.getLastD default).Duration = -1 ∧ log ≠ [] then log.dropLast else log

/-- Source: parse.go, `NewFromLog`: scan the recognized lines starting from
the empty log with `haveBegin = true`, then drop a trailing open phase and
package the `GcStats`. -/
def NewFromLog (recs : List LineRec) : Except ParseError GcStats :=
  match processAll ⟨[], 0, true⟩ recs with
  | .error e => .error e
  | .ok st => .ok ⟨finishLog st.log, st.n, st.haveBegin⟩

deriving instance DecidableEq for Except

/-- The abutment relation of the `GcStats` invariant (source: gcstats.go,
comment on `progTimes`): a phase ends exactly where the next begins. -/
def abutRel (p q : Phase) : Prop := p.Begin + p.Duration = q.Begin

/-- All consecutive phases of a log abut. -/
def PhasesAbut (log : List Phase) : Prop := List.Chain' abutRel log

/-- The total probability mass carried by an edge list, as the spec words it:
the sum over edges of `y` times the width to the next edge, plus all Dirac
masses. -/
def massE : List edge → ℚ
  | [] => 0
  | [e] => e.dirac
  | e1 :: e2 :: rest => e1.y * (e2.x - e1.x) + e1.dirac + massE (e2 :: rest)

def sumY (D : List edge) : ℚ := (D.map fun e => e.y).sum

def sumYX (D : List edge) : ℚ := (D.map fun e => e.y * e.x).sum

def sumD (D : List edge) : ℚ := (D.map fun e => e.dirac).sum

/-- The total area of a uniform collection. -/
def areaSum (us : List uniform) : ℚ := (us.map fun u => u.area).sum

/-- The "quarters" test log (source: mud_test.go, `statsQuarters`): three
phases on 4 processors, begins 0/25/75, durations 25/50/25, gc_procs 4/0/4.
The test file's composite literal leaves `Kind`, `N` and `STW` at their zero
values; `progTimes` must hold for the MUD methods to run on it. -/
def statsQuarters : GcStats :=
  ⟨[⟨0, 25, .PhaseSweepTerm, 0, 4, 4, false⟩,
    ⟨25, 50, .PhaseSweepTerm, 0, 4, 0, false⟩,
    ⟨75, 25, .PhaseSweepTerm, 0, 4, 4, false⟩], 1, true⟩

/-! ### Claim C1 model: slice-independent window sums

`muInWindow` is called on varying slices of the log; the proofs below relate
all those calls to window sums over the whole log.  `ov b e p` is the length
of the overlap of phase `p` with the window `[b, e)`. -/

/-- Overlap of phase `p` with the window `[b, e)`, clamped at 0. -/
def ov (b e : ℤ) (p : Phase) : ℤ := max 0 (min e (endT p) - max b p.Begin)

/-- Total processor-nanoseconds of the whole log inside `[b, e)`. -/
def cleanT (b e : ℤ) (log : List Phase) : ℤ :=
  (log.map fun p => p.Gomaxprocs * ov b e p).sum

/-- Collector processor-nanoseconds of the whole log inside `[b, e)` (an STW
phase counts all of its gomaxprocs). -/
def cleanG (b e : ℤ) (log : List Phase) : ℚ :=
  (log.map fun p =>
    (if p.STW then (p.Gomaxprocs : ℚ) else p.GCProcs) * ((ov b e p : ℤ) : ℚ)).sum

/-- Total overlap of the log with `[b, e)`. -/
def ovSum (b e : ℤ) (log : List Phase) : ℤ := (log.map fun p => ov b e p).sum

/-- Slice-independent mutator utilization of `[b, e)` over the whole log. -/
def muF (log : List Phase) (b e : ℤ) : ℚ :=
  (((cleanT b e log : ℤ) : ℚ) - cleanG b e log) / ((cleanT b e log : ℤ) : ℚ)

/-- The position of phase `q` relative to the window segment: while the
window `[b, b+w)` slides by up to `Δ`, neither window endpoint crosses an
edge of `q`.  The six cases are: `q` before the window; `q` contains the left
endpoint throughout and ends inside the window; `q` inside the window
throughout; `q` contains the whole window throughout; `q` contains the right
endpoint throughout and starts inside the window; `q` after the window. -/
def SegOK (b w Δ : ℤ) (q : Phase) : Prop :=
  endT q ≤ b ∨
  (q.Begin ≤ b ∧ b + Δ ≤ endT q ∧ endT q ≤ b + w) ∨
  (b + Δ ≤ q.Begin ∧ endT q ≤ b + w) ∨
  (q.Begin ≤ b ∧ b + w + Δ ≤ endT q) ∨
  (b + Δ ≤ q.Begin ∧ q.Begin ≤ b + w ∧ b + w + Δ ≤ endT q) ∨
  b + w + Δ ≤ q.Begin

/-- `x` is a window start probed by the `MMU` loop: either the begin of some
phase (when the window fits before the log's end) or `End() - w` for some
phase (when the window fits after the log's start). -/
def ProbePos (log : List Phase) (w x : ℤ) : Prop :=
  ∃ j, j < log.length ∧
    ((x = (log.getD j default).Begin ∧ x + w ≤ endT (log.getLastD default)) ∨
     (x = endT (log.getD j default) - w ∧ (log.headD default).Begin ≤ x))

/-! ### The edge-algebra unit scenarios of mud_test.go (embedding validation) -/

example : uniformSumToEdges [⟨0, 1, 1/2⟩, ⟨2, 3, 1/2⟩] =
    [⟨0, 1/2, 0⟩, ⟨1, 0, 0⟩, ⟨2, 1/2, 0⟩, ⟨3, 0, 0⟩] := by
  norm_num [uniformSumToEdges, uniformDeltas, sortDeltas, mergeRun, toHeights,
    List.insertionSort, List.orderedInsert, List.cons_ne_nil]

example : uniformSumToEdges [⟨0, 1, 1/2⟩, ⟨1/2, 3/2, 1/2⟩] =
    [⟨0, 1/2, 0⟩, ⟨1/2, 1, 0⟩, ⟨1, 1/2, 0⟩, ⟨3/2, 0, 0⟩] := by
  norm_num [uniformSumToEdges, uniformDeltas, sortDeltas, mergeRun, toHeights,
    List.insertionSort, List.orderedInsert, List.cons_ne_nil]

example : uniformSumToEdges [⟨0, 2, 1/2⟩, ⟨1/2, 3/2, 1/2⟩] =
    [⟨0, 1/4, 0⟩, ⟨1/2, 3/4, 0⟩, ⟨3/2, 1/4, 0⟩, ⟨2, 0, 0⟩] := by
  norm_num [uniformSumToEdges, uniformDeltas, sortDeltas, mergeRun, toHeights,
    List.insertionSort, List.orderedInsert, List.cons_ne_nil]

example : uniformSumToEdges [⟨0, 2, 1/2⟩, ⟨0, 1, 1/4⟩, ⟨1, 2, 1/4⟩] =
    [⟨0, 1/2, 0⟩, ⟨2, 0, 0⟩] := by
  norm_num [uniformSumToEdges, uniformDeltas, sortDeltas, mergeRun, toHeights,
    List.insertionSort, List.orderedInsert, List.cons_ne_nil]

example : uniformSumToEdges [⟨0, 0, 1/2⟩, ⟨1, 1, 1/2⟩] =
    [⟨0, 0, 1/2⟩, ⟨1, 0, 1/2⟩] := by
  norm_num [uniformSumToEdges, uniformDeltas, sortDeltas, mergeRun, toHeights,
    List.insertionSort, List.orderedInsert, List.cons_ne_nil]

example : uniformSumToEdges [⟨0, 1, 1/2⟩, ⟨1/2, 1/2, 1/2⟩] =
    [⟨0, 1/2, 0⟩, ⟨1/2, 1/2, 1/2⟩, ⟨1, 0, 0⟩] := by
  norm_num [uniformSumToEdges, uniformDeltas, sortDeltas, mergeRun, toHeights,
    List.insertionSort, List.orderedInsert, List.cons_ne_nil]

example : uniformSumToEdges [⟨0, 1, 1/4⟩, ⟨1, 1, 1/4⟩, ⟨1, 1, 1/4⟩, ⟨1, 2, 1/4⟩] =
    [⟨0, 1/4, 0⟩, ⟨1, 1/4, 1/2⟩, ⟨2, 0, 0⟩] := by
  norm_num [uniformSumToEdges, uniformDeltas, sortDeltas, mergeRun, toHeights,
    List.insertionSort, List.orderedInsert, List.cons_ne_nil]

/-! ### Claim C10: `Phase.End` -/

/-- C10: for every `Phase`, the public accessor `End()` panics (returns
`none`) exactly when the phase's duration is unknown (`Duration = -1`), and
on a phase with known duration it returns `Begin + Duration` without
panicking. -/
theorem phase_End_spec (p : Phase) :
    (p.End = none ↔ p.Duration = -1) ∧
    (p.Duration ≠ -1 → p.End = some (p.Begin + p.Duration)) := by
  unfold Phase.End
  constructor
  · constructor
    · intro h
      by_contra hd
      simp [hd] at h
    · intro h
      simp [h]
  · intro h
    simp [h]

/-- Witness for C10 at a concrete phase: a 5ns phase at 2ns has end 7ns. -/
theorem phase_End_spec_witness :
    (⟨2, 5, .PhaseSweep, 1, 4, 0, false⟩ : Phase).End = some 7 :=
  (phase_End_spec ⟨2, 5, .PhaseSweep, 1, 4, 0, false⟩).2 (by decide)

/-! ### Claim C8: MMU/MUD fail fast without program times -/

/-- C8: on a `GcStats` whose `have_prog_times` is false, `MMU` and
`MutatorUtilizationDistribution` panic via `requireProgTimes` (modelled by
the `Run` wrappers returning `none`) for every window size, including
non-positive ones: the `requireProgTimes` check precedes every other
computation in both methods. -/
theorem mmu_mud_require_prog_times (s : GcStats) (windowNS : ℤ)
    (h : s.HaveProgTimes = false) :
    s.MMURun windowNS = none ∧ s.MUDRun windowNS = none := by
  unfold GcStats.MMURun GcStats.MUDRun
  simp [h]

/-- Witness for C8: a stats value without program times, probed at window
size -1. -/
theorem mmu_mud_require_prog_times_witness :
    (GcStats.mk [⟨0, 5, .PhaseSweep, 1, 1, 0, false⟩] 1 false).MMURun (-1) = none ∧
    (GcStats.mk [⟨0, 5, .PhaseSweep, 1, 1, 0, false⟩] 1 false).MUDRun (-1) = none :=
  mmu_mud_require_prog_times (GcStats.mk [⟨0, 5, .PhaseSweep, 1, 1, 0, false⟩] 1 false)
    (-1) (by decide)

/-! ### Claim C6: zero merged entries are dropped -/

/-- Every entry of the merged delta list except the final one has a nonzero
`y` or `dirac`: the Go merge loop commits an accumulated entry only after
checking it is nonzero, but never re-checks the entry it is accumulating when
the input runs out. -/
theorem mergeRun_nonzero_except_last (l : List edge) :
    ∀ (cur : edge) (i : Nat), i + 1 < (mergeRun cur l).length →
      ((mergeRun cur l).getD i default).y ≠ 0 ∨
      ((mergeRun cur l).getD i default).dirac ≠ 0 := by
  induction l with
  | nil =>
    intro cur i hi
    simp [mergeRun] at hi
  | cons e rest ih =>
    intro cur i hi
    by_cases hx : e.x ≠ cur.x
    · by_cases hnz : cur.y ≠ 0 ∨ cur.dirac ≠ 0
      · rw [mergeRun, if_pos hx, if_pos hnz] at hi ⊢
        match i with
        | 0 => simpa using hnz
        | j + 1 =>
          simp only [List.getD_cons_succ]
          exact ih e j (by simpa using hi)
      · rw [mergeRun, if_pos hx, if_neg hnz] at hi ⊢
        exact ih e i hi
    · rw [mergeRun, if_neg hx] at hi ⊢
      exact ih _ i hi

/-- `toHeights` preserves list length. -/
theorem toHeights_length (D : List edge) : ∀ h : ℚ, (toHeights h D).length = D.length := by
  induction D with
  | nil => intro h; rfl
  | cons d rest ih => intro h; simp [toHeights, ih]

/-- `toHeights` preserves the Dirac component at every index. -/
theorem toHeights_getD_dirac (D : List edge) : ∀ (h : ℚ) (i : Nat), i < D.length →
    ((toHeights h D).getD i default).dirac = (D.getD i default).dirac := by
  induction D with
  | nil => intro h i hi; simp at hi
  | cons d rest ih =>
    intro h i hi
    match i with
    | 0 => rfl
    | j + 1 =>
      simp only [toHeights, List.getD_cons_succ]
      exact ih (h + d.y) j (by simp at hi; omega)

/-- Each absolute height produced by `toHeights` is the previous height (the
start height `h` for the first entry) plus the entry's height delta. -/
theorem toHeights_getD_y (D : List edge) : ∀ (h : ℚ) (i : Nat), i < D.length →
    ((toHeights h D).getD i default).y =
      (if i = 0 then h else ((toHeights h D).getD (i - 1) default).y) + (D.getD i default).y := by
  induction D with
  | nil => intro h i hi; simp at hi
  | cons d rest ih =>
    intro h i hi
    match i with
    | 0 => simp [toHeights]
    | 1 =>
      have h0 : 0 < rest.length := by simp at hi; omega
      have := ih (h + d.y) 0 h0
      simp only [if_pos rfl] at this
      simp only [toHeights, List.getD_cons_succ, List.getD_cons_zero]
      simpa using this
    | j + 2 =>
      have h0 : j + 1 < rest.length := by simp at hi; omega
      have := ih (h + d.y) (j + 1) h0
      simp only [if_neg (by omega : ¬j + 1 = 0)] at this
      simp only [toHeights, List.getD_cons_succ]
      simpa using this

/-- C6 counterexample: the claim "the edge list returned by
`uniformSumToEdges` contains no entry whose merged `y` and `dirac` are both
zero" is false as stated.  On the input `[{l=0, r=0, area=0}]` (which
satisfies `0 ≤ area` and `l ≤ r`) the Go merge loop never re-checks the final
accumulated entry, so the output is `[{0,0,0}]` — a single entry contributing
nothing. -/
theorem uniformSumToEdges_zero_entry_counterexample :
    ¬ (∀ us : List uniform, (∀ u ∈ us, 0 ≤ u.area ∧ u.l ≤ u.r) →
        ∀ e ∈ uniformSumToEdges us, e.y ≠ 0 ∨ e.dirac ≠ 0) := by
  intro hclaim
  have hmem : (⟨0, 0, 0⟩ : edge) ∈ uniformSumToEdges [⟨0, 0, 0⟩] := by
    norm_num [uniformSumToEdges, uniformDeltas, sortDeltas, mergeRun, toHeights,
      List.insertionSort, List.orderedInsert, List.cons_ne_nil]
  have := hclaim [⟨0, 0, 0⟩] (by norm_num) ⟨0, 0, 0⟩ hmem
  simp at this

/-- C6 amended: after merging deltas sharing the same `x`, every merged entry
that contributes nothing is dropped from the output **except possibly the
final entry** (the Go loop checks an accumulated entry only when a new `x`
begins, and the last accumulated entry is emitted unchecked).  Stated on the
returned edge list: every non-final edge either changes the running height or
carries a Dirac mass. -/
theorem uniformSumToEdges_nonzero_except_last (us : List uniform) (i : Nat)
    (hi : i + 1 < (uniformSumToEdges us).length) :
    ((uniformSumToEdges us).getD i default).y ≠
        (if i = 0 then 0 else ((uniformSumToEdges us).getD (i - 1) default).y) ∨
      ((uniformSumToEdges us).getD i default).dirac ≠ 0 := by
  by_cases hus : us = []
  · rw [uniformSumToEdges, if_pos hus] at hi
    simp at hi
  · have h1 : uniformSumToEdges us =
        match sortDeltas (uniformDeltas us) with
        | [] => []
        | d :: rest => toHeights 0 (mergeRun d rest) := by
      rw [uniformSumToEdges, if_neg hus]
    rcases hsort : sortDeltas (uniformDeltas us) with _ | ⟨d, rest⟩ <;> rw [hsort] at h1
    · rw [h1] at hi
      simp at hi
    · rw [h1] at hi ⊢
      have hlen : i + 1 < (mergeRun d rest).length := by
        rwa [toHeights_length] at hi
      have hy := toHeights_getD_y (mergeRun d rest) 0 i (by omega)
      have hd := toHeights_getD_dirac (mergeRun d rest) 0 i (by omega)
      rcases mergeRun_nonzero_except_last rest d i hlen with hnz | hnz
      · left
        rw [hy]
        intro hEq
        exact hnz (by linarith)
      · right
        rw [hd]
        exact hnz

/-- Witness for C6 amended, at the overlapping-uniforms repo test vector:
the first edge of a two-uniform sum changes the height. -/
theorem uniformSumToEdges_nonzero_except_last_witness :
    ((uniformSumToEdges [⟨0, 1, 1/2⟩, ⟨2, 3, 1/2⟩]).getD 0 default).y ≠
        (if (0 : Nat) = 0 then 0 else
          ((uniformSumToEdges [⟨0, 1, 1/2⟩, ⟨2, 3, 1/2⟩]).getD (0 - 1) default).y) ∨
      ((uniformSumToEdges [⟨0, 1, 1/2⟩, ⟨2, 3, 1/2⟩]).getD 0 default).dirac ≠ 0 :=
  uniformSumToEdges_nonzero_except_last [⟨0, 1, 1/2⟩, ⟨2, 3, 1/2⟩] 0 (by
    norm_num [uniformSumToEdges, uniformDeltas, sortDeltas, mergeRun, toHeights,
      List.insertionSort, List.orderedInsert, List.cons_ne_nil])

/-! ### Claim C9: the quarters MUD at window 100 -/

/-- The whole-log utilization of the quarters log is 1/2. -/
theorem quarters_mu_whole :
    muInWindow 0 100 statsQuarters.log = 1/2 := by
  norm_num [muInWindow, muScan, endT, statsQuarters]

/-- The edge list of a unit Dirac at 1/2. -/
theorem quarters_edges :
    uniformSumToEdges [⟨1/2, 1/2, 1⟩] = [⟨1/2, 0, 1⟩] := by
  norm_num [uniformSumToEdges, uniformDeltas, sortDeltas, mergeRun, toHeights,
    List.insertionSort, List.orderedInsert, List.cons_ne_nil]

/-- At window 100 = last-first, the quarters MUD is built from the single
degenerate addend `{u, u, 1}` with `u = 1/2`. -/
theorem quarters_mud100_eq :
    statsQuarters.MutatorUtilizationDistribution 100 = ⟨100, [⟨1/2, 0, 1⟩], [0]⟩ := by
  have hmu := quarters_mu_whole
  have hedges := quarters_edges
  norm_num [statsQuarters] at hmu
  norm_num [GcStats.MutatorUtilizationDistribution, mudLoop, endT, statsQuarters,
    hmu, hedges, csumsOf, List.cons_ne_nil]

/-- Go's `sort.Search` on an empty range returns the lower bound. -/
theorem searchLoop_stop (f : Nat → Bool) (i : Nat) : searchLoop f i i = i := by
  rw [searchLoop]; simp

/-- Go's `sort.Search` on a one-element range tests the single index. -/
theorem searchLoop_one (f : Nat → Bool) : searchLoop f 0 1 = if f 0 then 0 else 1 := by
  rw [searchLoop]
  by_cases h : f 0 <;> simp [h, searchLoop_stop]

/-- The quarters MUD at window 100 has CDF 0 just below the Dirac. -/
theorem quarters_cdf_0499 :
    (MUD.mk 100 [⟨1/2, 0, 1⟩] [0]).CDF (499/1000) = 0 := by
  have h : ((499 : ℚ)/1000) < 1/2 := by norm_num
  have h2 : ¬ ((2 : ℚ))⁻¹ ≤ 499/1000 := by norm_num
  simp [MUD.CDF, sortSearch, searchLoop_one, h, h2]

/-- The quarters MUD at window 100 has CDF 1 at the Dirac. -/
theorem quarters_cdf_half :
    (MUD.mk 100 [⟨1/2, 0, 1⟩] [0]).CDF (1/2) = 1 := by
  have h : ¬ ((1 : ℚ)/2) < 1/2 := by norm_num
  simp [MUD.CDF, sortSearch, searchLoop_one, h]

/-- Every percentile of the single-Dirac MUD is the Dirac's abscissa. -/
theorem quarters_invcdf (p : ℚ) (h0 : 0 ≤ p) (h1 : p ≤ 1) :
    (MUD.mk 100 [⟨1/2, 0, 1⟩] [0]).InvCDF p = 1/2 := by
  unfold MUD.InvCDF
  by_cases hp : p ≤ 0
  · simp [hp]
  · by_cases hq : 1 ≤ p
    · simp [hp, hq]
    · have hpos : ¬ p < 0 := by linarith
      have hlt : p < 0 + 1 := by linarith
      simp [hp, hq, sortSearch, searchLoop_one, hpos, hlt]

/-- C9: on the quarters log, `MutatorUtilizationDistribution(100)` is a
single Dirac of mass 1 at utilization 1/2, with `CDF(0.499) = 0`,
`CDF(0.5) = 1`, and `InvCDF(p) = 1/2` for every `p ∈ [0,1]`. -/
theorem quarters_mud_100_spec :
    (statsQuarters.MutatorUtilizationDistribution 100).edges = [⟨1/2, 0, 1⟩] ∧
    (statsQuarters.MutatorUtilizationDistribution 100).CDF (499/1000) = 0 ∧
    (statsQuarters.MutatorUtilizationDistribution 100).CDF (1/2) = 1 ∧
    ∀ p : ℚ, 0 ≤ p → p ≤ 1 →
      (statsQuarters.MutatorUtilizationDistribution 100).InvCDF p = 1/2 := by
  rw [quarters_mud100_eq]
  exact ⟨rfl, quarters_cdf_0499, quarters_cdf_half, quarters_invcdf⟩

/-- Witness for C9, instantiating the percentile quantifier at 3/4. -/
theorem quarters_mud_100_spec_witness :
    (statsQuarters.MutatorUtilizationDistribution 100).InvCDF (3/4) = 1/2 :=
  quarters_mud_100_spec.2.2.2 (3/4) (by norm_num) (by norm_num)

/-! ### Claim C7: Stops joins with a duration-weighted mean -/

/-- One-step unfolding of the `Stops` scan on a phase with no open run. -/
theorem stopsAux_cons_none (p : Phase) (L : List Phase) :
    stopsAux none (p :: L) =
      if p.STW = true then stopsAux (some p) L else stopsAux none L := rfl

theorem stopsAux_cons_some (cur p : Phase) (L : List Phase) :
    stopsAux (some cur) (p :: L) =
      if p.STW = true then stopsAux (some (joinPhase cur p)) L
      else cur :: stopsAux none L := rfl

theorem stopsAux_append (l1 : List Phase) : ∀ (o : Option Phase) (l2 : List Phase),
    (∀ q, l1.getLast? = some q → q.STW = false) →
    (l1 ≠ [] ∨ o = none) →
    stopsAux o (l1 ++ l2) = stopsAux o l1 ++ stopsAux none l2 := by
  induction l1 with
  | nil =>
    intro o l2 _ hne
    rcases hne with h | h
    · exact absurd rfl h
    · subst h; simp [stopsAux]
  | cons p rest ih =>
    intro o l2 hlast hne
    match hr : rest, hlast with
    | [], hlast =>
      have hp : p.STW = false := hlast p rfl
      have hp2 : ¬ p.STW = true := by simp [hp]
      match o with
      | none =>
        rw [List.cons_append, stopsAux_cons_none, stopsAux_cons_none, if_neg hp2,
          if_neg hp2]
        simp [stopsAux]
      | some cur =>
        rw [List.cons_append, stopsAux_cons_some, stopsAux_cons_some, if_neg hp2,
          if_neg hp2]
        simp [stopsAux]
    | q :: rest2, hlast =>
      have hlast2 : ∀ z, (q :: rest2).getLast? = some z → z.STW = false := by
        intro z hz
        exact hlast z (by rwa [List.getLast?_cons_cons])
      have hcons : q :: rest2 ≠ [] := List.cons_ne_nil q rest2
      match o with
      | none =>
        rw [List.cons_append, stopsAux_cons_none, stopsAux_cons_none]
        by_cases hp : p.STW = true
        · rw [if_pos hp, if_pos hp]
          exact ih (some p) l2 hlast2 (Or.inl hcons)
        · rw [if_neg hp, if_neg hp]
          exact ih none l2 hlast2 (Or.inr rfl)
      | some cur =>
        rw [List.cons_append, stopsAux_cons_some, stopsAux_cons_some]
        by_cases hp : p.STW = true
        · rw [if_pos hp, if_pos hp]
          exact ih (some (joinPhase cur p)) l2 hlast2 (Or.inl hcons)
        · rw [if_neg hp, if_neg hp, ih none l2 hlast2 (Or.inr rfl)]
          simp

theorem stopsAux_run (run : List Phase) : ∀ (cur : Phase) (post : List Phase),
    (∀ p ∈ run, p.STW = true) →
    stopsAux (some cur) (run ++ post) = stopsAux (some (run.foldl joinPhase cur)) post := by
  induction run with
  | nil => intro cur post _; simp
  | cons p rest ih =>
    intro cur post hstw
    have hp : p.STW = true := hstw p (by simp)
    rw [List.cons_append, stopsAux_cons_some, if_pos hp, List.foldl_cons]
    exact ih (joinPhase cur p) post (fun q hq => hstw q (by simp [hq]))

theorem stopsAux_flush (cur : Phase) (post : List Phase)
    (hpost : ∀ q, post.head? = some q → q.STW = false) :
    stopsAux (some cur) post = cur :: stopsAux none post := by
  match post with
  | [] => rfl
  | q :: rest =>
    have hq : ¬ q.STW = true := by simp [hpost q rfl]
    rw [stopsAux_cons_some, if_neg hq, stopsAux_cons_none, if_neg hq]

theorem foldl_joinPhase_spec (run : List Phase) : ∀ cur : Phase,
    (∀ p ∈ run, 0 < p.Duration) → 0 < cur.Duration →
    (run.foldl joinPhase cur).Duration =
        cur.Duration + (run.map fun p => p.Duration).sum ∧
    (run.foldl joinPhase cur).GCProcs =
      (cur.GCProcs * (cur.Duration : ℚ) +
          (run.map fun p => p.GCProcs * (p.Duration : ℚ)).sum) /
        ((cur.Duration : ℚ) + (run.map fun p => ((p.Duration : ℤ) : ℚ)).sum) := by
  induction run with
  | nil =>
    intro cur _ hcur
    have hden : ((cur.Duration : ℚ)) ≠ 0 := Int.cast_ne_zero.mpr (ne_of_gt hcur)
    exact ⟨by simp, by simp [mul_div_assoc, div_self hden]⟩
  | cons p rest ih =>
    intro cur hdur hcur
    have hp : 0 < p.Duration := hdur p (by simp)
    have hden : ((cur.Duration : ℚ) + (p.Duration : ℚ)) ≠ 0 := by
      have h1 : (0 : ℚ) < (cur.Duration : ℚ) + (p.Duration : ℚ) := by
        exact_mod_cast add_pos hcur hp
      linarith
    have hsum : (joinPhase cur p).Duration = cur.Duration + p.Duration := by
      simp [joinPhase]
    have hjoin : (joinPhase cur p).GCProcs =
        (cur.GCProcs * (cur.Duration : ℚ) + p.GCProcs * (p.Duration : ℚ)) /
          ((cur.Duration : ℚ) + (p.Duration : ℚ)) := by
      simp only [joinPhase]
      field_simp
    have hcur2 : 0 < (joinPhase cur p).Duration := by
      rw [hsum]; omega
    obtain ⟨ihd, ihg⟩ := ih (joinPhase cur p) (fun q hq => hdur q (by simp [hq])) hcur2
    refine ⟨?_, ?_⟩
    · rw [List.foldl_cons, ihd, hsum, List.map_cons, List.sum_cons]
      ring
    · rw [List.foldl_cons, ihg, hjoin, hsum, List.map_cons, List.sum_cons,
        List.map_cons, List.sum_cons]
      push_cast
      rw [div_mul_cancel₀ _ hden, add_assoc, add_assoc]

/-- C7: for a maximal run of consecutive stop-the-world phases (all-STW
`run`, preceded by a `pre` ending in a non-STW phase or empty, followed by a
`post` starting with a non-STW phase or empty), `Stops()` emits one coalesced
phase for the run whose `GCProcs` is the duration-weighted mean of the run's
`GCProcs`, even though the code joins pairwise. -/
theorem stops_run_weighted_mean (pre run post : List Phase) (nn : ℤ) (pt : Bool)
    (hpre : ∀ q, pre.getLast? = some q → q.STW = false)
    (hrun : ∀ p ∈ run, p.STW = true)
    (hne : run ≠ [])
    (hpost : ∀ q, post.head? = some q → q.STW = false)
    (hdur : ∀ p ∈ run, 0 < p.Duration) :
    ∃ j, (GcStats.mk (pre ++ run ++ post) nn pt).Stops =
        stopsAux none pre ++ j :: stopsAux none post ∧
      j.GCProcs = (run.map fun p => p.GCProcs * (p.Duration : ℚ)).sum /
        (run.map fun p => ((p.Duration : ℤ) : ℚ)).sum := by
  match run, hne with
  | r0 :: rtl, _ =>
    refine ⟨rtl.foldl joinPhase r0, ?_, ?_⟩
    · simp only [GcStats.Stops]
      rw [List.append_assoc]
      refine (stopsAux_append pre none ((r0 :: rtl) ++ post) hpre (Or.inr rfl)).trans ?_
      congr 1
      rw [List.cons_append, stopsAux_cons_none, if_pos (hrun r0 (by simp)),
        stopsAux_run rtl r0 post (fun q hq => hrun q (by simp [hq])),
        stopsAux_flush _ post hpost]
    · have h := (foldl_joinPhase_spec rtl r0
        (fun q hq => hdur q (by simp [hq])) (hdur r0 (by simp))).2
      rw [h, List.map_cons, List.sum_cons, List.map_cons, List.sum_cons]

/-- Witness for C7: two joined STW phases with gc_procs 1 and 1/2 and
durations 10 and 30 coalesce to gc_procs (1*10 + 1/2*30)/40 = 5/8. -/
theorem stops_run_weighted_mean_witness :
    ∃ j, (GcStats.mk ([] ++
          [⟨0, 10, .PhaseSweepTerm, 1, 1, 1, true⟩,
           ⟨10, 30, .PhaseMarkTerm, 1, 1, 1/2, true⟩] ++ []) 1 true).Stops =
        stopsAux none [] ++ j :: stopsAux none [] ∧
      j.GCProcs = (([⟨0, 10, .PhaseSweepTerm, 1, 1, 1, true⟩,
           ⟨10, 30, .PhaseMarkTerm, 1, 1, 1/2, true⟩] : List Phase).map
             fun p => p.GCProcs * (p.Duration : ℚ)).sum /
        (([⟨0, 10, .PhaseSweepTerm, 1, 1, 1, true⟩,
           ⟨10, 30, .PhaseMarkTerm, 1, 1, 1/2, true⟩] : List Phase).map
             fun p => ((p.Duration : ℤ) : ℚ)).sum :=
  stops_run_weighted_mean []
    [⟨0, 10, .PhaseSweepTerm, 1, 1, 1, true⟩, ⟨10, 30, .PhaseMarkTerm, 1, 1, 1/2, true⟩]
    [] 1 true (by simp) (by intro p hp; fin_cases hp <;> rfl)
    (List.cons_ne_nil _ _) (by simp)
    (by intro p hp; fin_cases hp <;> decide)

/-! ### Claims C4 and C5: overlap repair and the trace-backward error -/

theorem processAll_append (l1 : List LineRec) : ∀ (st : ParserState) (l2 : List LineRec),
    processAll st (l1 ++ l2) =
      match processAll st l1 with
      | .error e => .error e
      | .ok st2 => processAll st2 l2 := by
  induction l1 with
  | nil => intro st l2; rfl
  | cons r rest ih =>
    intro st l2
    rcases hr : processRecord st r with e | st2
    · simp only [List.cons_append, processAll, hr]
    · simp only [List.cons_append, processAll, hr]
      exact ih st2 l2

/-- C5 amended: during overlap repair, for a cycle whose first phase overlaps
the previous cycle's open tail sweep by `delta ≤ 5ms`, `appendCycle` shifts
the new cycle's phases forward by **exactly `delta + 1` nanoseconds** relative
to their parsed begin times (not by at most 1ns), leaving the closed sweep
with duration exactly 1ns — so the new cycle begins exactly 1ns after the
prior sweep began. -/
theorem appendCycle_repair (st : ParserState) (first : Phase) (rest : List Phase)
    (hb : st.haveBegin = true)
    (hlog : st.log ≠ [])
    (hopen : (st.log.getLastD default).Duration = -1)
    (hover : first.Begin < (st.log.getLastD default).Begin)
    (hsmall : (st.log.getLastD default).Begin - first.Begin ≤ 5000000) :
    appendCycle st (first :: rest) = .ok
      ⟨st.log.dropLast ++ [{ st.log.getLastD default with Duration := 1 }] ++
         shiftPhases (first :: rest) ((st.log.getLastD default).Begin - first.Begin + 1),
       st.n + 1, st.haveBegin⟩ := by
  have hcond : (st.haveBegin = true) ∧ (st.log.getLastD default).Duration = -1 ∧ st.log ≠ [] :=
    ⟨hb, hopen, hlog⟩
  have hd : first.Begin - (st.log.getLastD default).Begin < 0 := by omega
  have hbig : ¬ 5000000 < -(first.Begin - (st.log.getLastD default).Begin) := by omega
  simp only [appendCycle, if_pos hcond, if_pos hd, if_neg hbig]
  have h1 : first.Begin - (st.log.getLastD default).Begin +
      (-(first.Begin - (st.log.getLastD default).Begin) + 1) = 1 := by ring
  have h2 : -(first.Begin - (st.log.getLastD default).Begin) + 1 =
      (st.log.getLastD default).Begin - first.Begin + 1 := by ring
  rw [h1, h2]

/-- The overlap check: past a 5ms backward overlap, `appendCycle` fails with
the `traceBackward` error carrying the millisecond delta and the two cycle
ordinals. -/
theorem appendCycle_backward (st : ParserState) (first : Phase) (rest : List Phase)
    (hb : st.haveBegin = true)
    (hlog : st.log ≠ [])
    (hopen : (st.log.getLastD default).Duration = -1)
    (hover : first.Begin < (st.log.getLastD default).Begin)
    (hbig : 5000000 < (st.log.getLastD default).Begin - first.Begin) :
    appendCycle st (first :: rest) = .error
      (.traceBackward (((st.log.getLastD default).Begin - first.Begin) / 1000000)
        (st.log.getLastD default).N first.N) := by
  have hcond : (st.haveBegin = true) ∧ (st.log.getLastD default).Duration = -1 ∧ st.log ≠ [] :=
    ⟨hb, hopen, hlog⟩
  have hd : first.Begin - (st.log.getLastD default).Begin < 0 := by omega
  have hbig2 : 5000000 < -(first.Begin - (st.log.getLastD default).Begin) := by omega
  simp only [appendCycle, if_pos hcond, if_pos hd, if_pos hbig2]
  have h1 : -(first.Begin - (st.log.getLastD default).Begin) =
      (st.log.getLastD default).Begin - first.Begin := by ring
  rw [h1]

/-- When the line carries phases and absolute times, one parser step is
exactly `appendCycle` on the unchanged state. -/
theorem processRecord_eq_appendCycle (st : ParserState) (rec : LineRec)
    (first : Phase) (rest : List Phase)
    (hex : extractPhases rec = .ok (first :: rest, true)) :
    processRecord st rec = appendCycle st (first :: rest) := by
  simp only [processRecord, hex]
  have : ((first :: rest).length ≠ 0) = True := by simp
  simp only [this, if_true, Bool.and_true]

/-- C4: during parsing with absolute times, when a recognized cycle's first
phase begins more than 5ms before the previous cycle's open tail sweep,
`NewFromLog` fails with the "trace goes backward" error citing the two cycle
ordinals and the millisecond delta, and returns no `GcStats` (the error is
returned immediately, discarding all parsed state); an overlap of 5ms or
less is not an error: the parser step succeeds. -/
theorem trace_backward_spec (pre post : List LineRec) (rec : LineRec)
    (st : ParserState) (first : Phase) (rest : List Phase)
    (hpre : processAll ⟨[], 0, true⟩ pre = .ok st)
    (hex : extractPhases rec = .ok (first :: rest, true))
    (hb : st.haveBegin = true)
    (hlog : st.log ≠ [])
    (hopen : (st.log.getLastD default).Duration = -1)
    (hover : first.Begin < (st.log.getLastD default).Begin) :
    (5000000 < (st.log.getLastD default).Begin - first.Begin →
      NewFromLog (pre ++ rec :: post) =
        .error (.traceBackward (((st.log.getLastD default).Begin - first.Begin) / 1000000)
          (st.log.getLastD default).N first.N)) ∧
    ((st.log.getLastD default).Begin - first.Begin ≤ 5000000 →
      ∃ st2, processRecord st rec = .ok st2) := by
  constructor
  · intro hbig
    have herr : processRecord st rec = .error
        (.traceBackward (((st.log.getLastD default).Begin - first.Begin) / 1000000)
          (st.log.getLastD default).N first.N) := by
      rw [processRecord_eq_appendCycle st rec first rest hex]
      exact appendCycle_backward st first rest hb hlog hopen hover hbig
    have hall : processAll ⟨[], 0, true⟩ (pre ++ rec :: post) = .error
        (.traceBackward (((st.log.getLastD default).Begin - first.Begin) / 1000000)
          (st.log.getLastD default).N first.N) := by
      rw [processAll_append pre ⟨[], 0, true⟩ (rec :: post), hpre]
      simp only [processAll, herr]
    simp only [NewFromLog, hall]
  · intro hsmall
    exact ⟨_, (processRecord_eq_appendCycle st rec first rest hex).trans
      (appendCycle_repair st first rest hb hlog hopen hover hsmall)⟩

/-- Witness for C4: a 5000001ns backward step between cycles 1 and 2 makes
the whole parse fail with the "trace goes backward" error reporting 5ms. -/
theorem trace_backward_spec_witness :
    NewFromLog [.gc15 1 10000000 1 [0, 0, 0, 0, 0] [0, 0, 0, 0, 0],
                .gc15 2 4999999 1 [0, 0, 0, 0, 0] [0, 0, 0, 0, 0]] =
      .error (.traceBackward 5 1 2) := by
  have h := (trace_backward_spec
    [.gc15 1 10000000 1 [0, 0, 0, 0, 0] [0, 0, 0, 0, 0]] []
    (.gc15 2 4999999 1 [0, 0, 0, 0, 0] [0, 0, 0, 0, 0])
    ⟨[⟨10000000, 0, .PhaseSweepTerm, 1, 1, 1, true⟩,
      ⟨10000000, 0, .PhaseScan, 1, 1, 0, false⟩,
      ⟨10000000, 0, .PhaseInstallWB, 1, 1, 0, false⟩,
      ⟨10000000, 0, .PhaseMark, 1, 1, 0, false⟩,
      ⟨10000000, 0, .PhaseMarkTerm, 1, 1, 1, true⟩,
      ⟨10000000, -1, .PhaseSweep, 1, 1, 0, false⟩], 1, true⟩
    ⟨4999999, 0, .PhaseSweepTerm, 2, 1, 1, true⟩
    [⟨4999999, 0, .PhaseScan, 2, 1, 0, false⟩,
     ⟨4999999, 0, .PhaseInstallWB, 2, 1, 0, false⟩,
     ⟨4999999, 0, .PhaseMark, 2, 1, 0, false⟩,
     ⟨4999999, 0, .PhaseMarkTerm, 2, 1, 1, true⟩,
     ⟨4999999, -1, .PhaseSweep, 2, 1, 0, false⟩]
    (by decide) (by decide) (by decide) (by decide) (by decide) (by decide)).1 (by decide)
  exact h.trans (by decide)

/-- Witness for C5 amended: a 2ns overlap is repaired by a 3ns shift, leaving
the prior sweep 1ns long. -/
theorem appendCycle_repair_witness :
    appendCycle ⟨[⟨10, -1, .PhaseSweep, 1, 1, 0, false⟩], 1, true⟩
        [⟨8, 0, .PhaseSweepTerm, 2, 1, 1, true⟩] =
      .ok ⟨[⟨10, 1, .PhaseSweep, 1, 1, 0, false⟩,
            ⟨11, 0, .PhaseSweepTerm, 2, 1, 1, true⟩], 2, true⟩ := by
  have h := appendCycle_repair ⟨[⟨10, -1, .PhaseSweep, 1, 1, 0, false⟩], 1, true⟩
    ⟨8, 0, .PhaseSweepTerm, 2, 1, 1, true⟩ [] rfl (by decide) (by decide)
    (by decide) (by decide)
  exact h.trans (by decide)

/-- C5 counterexample: the claim "the parser shifts the new cycle's phases
forward by at most 1ns relative to their parsed begin times" is false.  In
this two-cycle trace the second cycle parses with first-phase begin 8ns,
overlapping the open sweep that began at 10ns by 2ns; the repaired log places
that phase at 11ns — a 3ns shift. -/
theorem overlap_shift_counterexample :
    (match phasesFromLog15 2 8 1 [0, 0, 0, 0, 0] [0, 0, 0, 0, 0] with
     | .ok phases => (phases.headD default).Begin
     | .error _ => 0) = 8 ∧
    (match NewFromLog [.gc15 1 10 1 [0, 0, 0, 0, 0] [0, 0, 0, 0, 0],
                       .gc15 2 8 1 [0, 0, 0, 0, 0] [0, 0, 0, 0, 0]] with
     | .ok s => (s.log.getD 6 default).Begin
     | .error _ => 0) = 11 ∧
    ¬ ((11 : ℤ) ≤ 8 + 1) := by decide

/-! ### Claim C2: parsed phases abut exactly -/

theorem getLastD_append_right (l1 l2 : List Phase) (h : l2 ≠ []) (d : Phase) :
    (l1 ++ l2).getLastD d = l2.getLastD d := by
  rw [List.getLastD_eq_getLast?, List.getLastD_eq_getLast?,
    List.getLast?_append_of_ne_nil l1 h]

theorem shiftPhases_abut (ph : List Phase) (c : ℤ) (h : PhasesAbut ph) :
    PhasesAbut (shiftPhases ph c) := by
  unfold PhasesAbut shiftPhases
  rw [List.chain'_map]
  exact h.imp fun a b hab => by simp only [abutRel] at hab ⊢; omega

theorem shiftPhases_ne_nil (ph : List Phase) (c : ℤ) (h : ph ≠ []) :
    shiftPhases ph c ≠ [] := by
  unfold shiftPhases
  simpa using h

theorem shiftPhases_getLastD_duration (ph : List Phase) (c : ℤ) (h : ph ≠ []) :
    ((shiftPhases ph c).getLastD default).Duration = (ph.getLastD default).Duration := by
  unfold shiftPhases
  match ph, h with
  | [p], _ => rfl
  | p :: q :: t, _ =>
    show ((shiftPhases (q :: t) c).getLastD default).Duration = ((q :: t).getLastD default).Duration
    exact shiftPhases_getLastD_duration (q :: t) c (by simp)

/-- The three phases of a Go 1.4 cycle with absolute begin abut. -/
theorem phases14_abut (n stop sweepTerm markTerm shrink b : ℤ) :
    PhasesAbut (phasesFromLog14 n stop sweepTerm markTerm shrink (some b)).1 := by
  simp only [phasesFromLog14, addBegins, PhasesAbut]
  rw [List.chain'_cons, List.chain'_cons]
  refine ⟨by simp only [abutRel]; ring, by simp only [abutRel]; ring, List.chain'_singleton _⟩

/-- The phase-construction loop of a Go 1.5 cycle produces abutting phases,
with the trailing phase beginning where the clock accumulation ends. -/
theorem build15_abut (cycleN g : ℤ) (L : List (PhaseKind × ℤ × ℤ)) :
    ∀ (now : ℤ) (tail : Phase), tail.Begin = now + (L.map fun t => t.2.1).sum →
    PhasesAbut (build15 cycleN g now L ++ [tail]) := by
  induction L with
  | nil =>
    intro now tail _
    simp only [build15, List.nil_append]
    exact List.chain'_singleton _
  | cons t L' ih =>
    intro now tail ht
    obtain ⟨kind, ck, cp⟩ := t
    unfold PhasesAbut
    simp only [build15, List.cons_append]
    rw [List.chain'_cons']
    constructor
    · intro y hy
      match L' with
      | [] =>
        simp only [build15, List.nil_append, List.head?_cons, Option.mem_def,
          Option.some.injEq] at hy
        subst hy
        simp only [abutRel, ht, List.map_cons, List.sum_cons, List.map_nil, List.sum_nil]
        ring
      | t2 :: L'' =>
        obtain ⟨kind2, ck2, cp2⟩ := t2
        simp only [build15, List.cons_append, List.head?_cons, Option.mem_def,
          Option.some.injEq] at hy
        subst hy
        simp [abutRel]
    · refine ih (now + ck) tail ?_
      rw [ht, List.map_cons, List.sum_cons]
      ring

/-- A successfully parsed Go 1.5 cycle yields a nonempty abutting phase list
ending in the open sweep. -/
theorem phases15_spec (n b g : ℤ) (clock cpu : List ℤ) (ph : List Phase)
    (h : phasesFromLog15 n b g clock cpu = .ok ph) :
    ph ≠ [] ∧ (ph.getLastD default).Duration = -1 ∧ PhasesAbut ph := by
  unfold phasesFromLog15 at h
  by_cases hc : clock.length ≠ 5
  · rw [if_pos hc] at h; exact absurd h (by simp)
  · rw [if_neg hc] at h
    by_cases hu : cpu.length ≠ 5
    · rw [if_pos hu] at h; exact absurd h (by simp)
    · rw [if_neg hu] at h
      simp only [Except.ok.injEq] at h
      subst h
      push_neg at hc hu
      refine ⟨by simp, ?_, ?_⟩
      · rw [getLastD_append_right _ _ (by simp)]
        rfl
      · refine build15_abut n g _ b _ ?_
        show b + clock.sum = b + _
        congr 1
        have h1 : (gc15Kinds.zip (clock.zip cpu)).map (fun t => t.2.1) =
            ((gc15Kinds.zip (clock.zip cpu)).map Prod.snd).map Prod.fst := by
          rw [List.map_map]; rfl
        rw [h1, List.map_snd_zip, List.map_fst_zip]
        · omega
        · simp [gc15Kinds, List.length_zip]; omega
/-- `appendCycle` preserves the parser invariant: when absolute times are
being tracked the log abuts, and a nonempty log always ends in the open
sweep. -/
theorem appendCycle_preserves (st : ParserState) (ph : List Phase) (st2 : ParserState)
    (hph : ph ≠ [])
    (hlastd : (ph.getLastD default).Duration = -1)
    (habut : st.haveBegin = true → PhasesAbut ph)
    (hinv1 : st.haveBegin = true → PhasesAbut st.log)
    (hinv2 : st.log = [] ∨ (st.log.getLastD default).Duration = -1)
    (h : appendCycle st ph = .ok st2) :
    (st2.haveBegin = true → PhasesAbut st2.log) ∧
    (st2.log = [] ∨ (st2.log.getLastD default).Duration = -1) ∧
    st2.haveBegin = st.haveBegin := by
  match ph, hph with
  | first :: rest, _ =>
    rw [appendCycle] at h
    by_cases hcond : (st.haveBegin = true) ∧
        (st.log.getLastD default).Duration = -1 ∧ st.log ≠ []
    · rw [if_pos hcond] at h
      obtain ⟨hhb, hopen, hlognil⟩ := hcond
      have hlog : st.log.dropLast ++ [st.log.getLastD default] = st.log := by
        rw [List.getLastD_eq_getLast?, List.getLast?_eq_getLast st.log hlognil]
        exact List.dropLast_append_getLast hlognil
      have hchain : List.Chain' abutRel st.log := hinv1 hhb
      have hdec : List.Chain' abutRel
          (st.log.dropLast ++ [st.log.getLastD default]) := by rwa [hlog]
      rw [List.chain'_append] at hdec
      by_cases hd : first.Begin - (st.log.getLastD default).Begin < 0
      · rw [if_pos hd] at h
        by_cases hbig : 5000000 < -(first.Begin - (st.log.getLastD default).Begin)
        · rw [if_pos hbig] at h
          exact absurd h (by simp)
        · rw [if_neg hbig] at h
          simp only [Except.ok.injEq] at h
          subst h
          refine ⟨?_, ?_, rfl⟩
          · intro _
            unfold PhasesAbut
            rw [List.append_assoc, List.chain'_append]
            refine ⟨hdec.1, ?_, ?_⟩
            · rw [List.chain'_append]
              refine ⟨List.chain'_singleton _, shiftPhases_abut _ _ (habut hhb), ?_⟩
              intro x hx y hy
              simp only [List.getLast?_singleton, Option.mem_def, Option.some.injEq] at hx
              subst hx
              simp only [shiftPhases, List.map_cons, List.head?_cons, Option.mem_def,
                Option.some.injEq] at hy
              subst hy
              simp only [abutRel]
              ring
            · intro x hx y hy
              have hb2 := hdec.2.2 x hx
              simp only [List.singleton_append, List.head?_cons, Option.mem_def,
                Option.some.injEq] at hy
              subst hy
              have := hb2 (st.log.getLastD default) rfl
              simpa [abutRel] using this
          · right
            rw [List.append_assoc, getLastD_append_right]
            · rw [getLastD_append_right _ _ (shiftPhases_ne_nil _ _ (by simp)),
                shiftPhases_getLastD_duration _ _ (by simp)]
              exact hlastd
            · simp [shiftPhases]
      · rw [if_neg hd] at h
        simp only [Except.ok.injEq] at h
        subst h
        refine ⟨?_, ?_, rfl⟩
        · intro _
          unfold PhasesAbut
          rw [List.append_assoc, List.chain'_append]
          refine ⟨hdec.1, ?_, ?_⟩
          · rw [List.chain'_append]
            refine ⟨List.chain'_singleton _, habut hhb, ?_⟩
            intro x hx y hy
            simp only [List.getLast?_singleton, Option.mem_def, Option.some.injEq] at hx
            subst hx
            simp only [List.head?_cons, Option.mem_def, Option.some.injEq] at hy
            subst hy
            simp only [abutRel]
            ring
          · intro x hx y hy
            have hb2 := hdec.2.2 x hx
            simp only [List.singleton_append, List.head?_cons, Option.mem_def,
              Option.some.injEq] at hy
            subst hy
            have := hb2 (st.log.getLastD default) rfl
            simpa [abutRel] using this
        · right
          rw [List.append_assoc, getLastD_append_right]
          · rw [getLastD_append_right _ _ (by simp : first :: rest ≠ [])]
            exact hlastd
          · simp
    · rw [if_neg hcond] at h
      simp only [Except.ok.injEq] at h
      subst h
      refine ⟨?_, ?_, rfl⟩
      · intro hhb
        have hlognil : st.log = [] := by
          by_contra hne
          rcases hinv2 with h2 | h2
          · exact hne h2
          · exact hcond ⟨hhb, h2, hne⟩
        show PhasesAbut (st.log ++ first :: rest)
        rw [hlognil, List.nil_append]
        exact habut hhb
      · right
        show ((st.log ++ first :: rest).getLastD default).Duration = -1
        rw [getLastD_append_right _ _ (by simp : first :: rest ≠ [])]
        exact hlastd

/-- Each recognized line contributes either nothing or a nonempty phase list
that ends in the open sweep and (when it carries absolute times) abuts. -/
theorem extractPhases_spec (rec : LineRec) (ph : List Phase) (hb1 : Bool)
    (h : extractPhases rec = .ok (ph, hb1)) :
    ph = [] ∨ (ph ≠ [] ∧ (ph.getLastD default).Duration = -1 ∧
      (hb1 = true → PhasesAbut ph)) := by
  match rec with
  | .other =>
    simp only [extractPhases, Except.ok.injEq, Prod.mk.injEq] at h
    exact Or.inl h.1.symm
  | .gc14 n stop sweepTerm markTerm shrink bo =>
    match bo with
    | none =>
      simp only [extractPhases, phasesFromLog14, Except.ok.injEq, Prod.mk.injEq] at h
      obtain ⟨hph, hb⟩ := h
      subst hph
      refine Or.inr ⟨by simp, rfl, ?_⟩
      intro hcontra
      rw [← hb] at hcontra
      exact absurd hcontra (by simp)
    | some b =>
      simp only [extractPhases, phasesFromLog14, Except.ok.injEq, Prod.mk.injEq] at h
      obtain ⟨hph, _⟩ := h
      subst hph
      refine Or.inr ⟨by simp [addBegins], rfl, fun _ =>
        phases14_abut n stop sweepTerm markTerm shrink b⟩
  | .gc15 n b g clock cpu =>
    simp only [extractPhases] at h
    rcases h15 : phasesFromLog15 n b g clock cpu with e | ph2
    · rw [h15] at h; exact absurd h (by simp)
    · rw [h15] at h
      simp only [Except.ok.injEq, Prod.mk.injEq] at h
      obtain ⟨hph, _⟩ := h
      subst hph
      obtain ⟨h1, h2, h3⟩ := phases15_spec n b g clock cpu ph2 h15
      exact Or.inr ⟨h1, h2, fun _ => h3⟩

/-- One parser step preserves the abutment invariant. -/
theorem processRecord_preserves (st : ParserState) (rec : LineRec) (st2 : ParserState)
    (hinv1 : st.haveBegin = true → PhasesAbut st.log)
    (hinv2 : st.log = [] ∨ (st.log.getLastD default).Duration = -1)
    (h : processRecord st rec = .ok st2) :
    (st2.haveBegin = true → PhasesAbut st2.log) ∧
    (st2.log = [] ∨ (st2.log.getLastD default).Duration = -1) := by
  rw [processRecord] at h
  rcases hex : extractPhases rec with e | ⟨ph, hb1⟩
  · rw [hex] at h; exact absurd h (by simp)
  · rw [hex] at h
    rcases extractPhases_spec rec ph hb1 hex with hnil | ⟨hne, hlast, habut⟩
    · subst hnil
      simp only [List.length_nil, ne_eq, not_true_eq_false, ite_false,
        not_false_eq_true, if_neg] at h
      rw [appendCycle] at h
      simp only [Except.ok.injEq] at h
      subst h
      exact ⟨hinv1, hinv2⟩
    · have hlen : ph.length ≠ 0 := by
        simpa [List.length_eq_zero] using hne
      have h2 : appendCycle ⟨st.log, st.n,
          if ph.length ≠ 0 then st.haveBegin && hb1 else st.haveBegin⟩ ph = .ok st2 := h
      rw [if_pos hlen] at h2
      have hpres := appendCycle_preserves ⟨st.log, st.n, st.haveBegin && hb1⟩ ph st2
        hne hlast
        (fun hh => habut (by
          have := hh
          simp only at this
          exact (Bool.and_eq_true _ _).mp this |>.2))
        (fun hh => hinv1 (by
          have := hh
          simp only at this
          exact (Bool.and_eq_true _ _).mp this |>.1))
        hinv2 h2
      exact ⟨hpres.1, hpres.2.1⟩

/-- The whole scan loop preserves the abutment invariant. -/
theorem processAll_preserves (recs : List LineRec) : ∀ (st st2 : ParserState),
    (st.haveBegin = true → PhasesAbut st.log) →
    (st.log = [] ∨ (st.log.getLastD default).Duration = -1) →
    processAll st recs = .ok st2 →
    st2.haveBegin = true → PhasesAbut st2.log := by
  induction recs with
  | nil =>
    intro st st2 h1 _ h
    simp only [processAll, Except.ok.injEq] at h
    subst h
    exact h1
  | cons r rest ih =>
    intro st st2 h1 h2 h
    rw [processAll] at h
    rcases hr : processRecord st r with e | stm
    · rw [hr] at h; exact absurd h (by simp)
    · rw [hr] at h
      have h3 : processAll stm rest = .ok st2 := h
      obtain ⟨m1, m2⟩ := processRecord_preserves st r stm h1 h2 hr
      exact ih stm st2 m1 m2 h3

/-- Dropping the trailing open phase keeps the log abutting. -/
theorem PhasesAbut_dropLast (log : List Phase) (h : PhasesAbut log) :
    PhasesAbut log.dropLast := by
  by_cases hnil : log = []
  · subst hnil; simpa using h
  · have hdecomp := List.dropLast_append_getLast hnil
    unfold PhasesAbut at h ⊢
    rw [← hdecomp, List.chain'_append] at h
    exact h.1

theorem getD_eq_get (l : List Phase) (i : Nat) (h : i < l.length) :
    l.getD i default = l.get ⟨i, h⟩ := by
  simp [List.getD_eq_getElem?_getD, List.getElem?_eq_getElem h, List.get_eq_getElem]

/-- C2: every `GcStats` returned successfully by the parser with
`have_prog_times` true has exactly abutting consecutive phases:
`phase[i].Begin + phase[i].Duration = phase[i+1].Begin` for every index,
including across cycle boundaries where the previous cycle's tail sweep was
closed or repaired. -/
theorem parsed_phases_abut (recs : List LineRec) (s : GcStats)
    (h : NewFromLog recs = .ok s) (hpt : s.progTimes = true) :
    ∀ i, i + 1 < s.log.length →
      (s.log.getD i default).Begin + (s.log.getD i default).Duration =
        (s.log.getD (i + 1) default).Begin := by
  rw [NewFromLog] at h
  rcases hall : processAll ⟨[], 0, true⟩ recs with e | st
  · rw [hall] at h; exact absurd h (by simp)
  · rw [hall] at h
    simp only [Except.ok.injEq] at h
    subst h
    have hpt2 : st.haveBegin = true := hpt
    have habut : PhasesAbut st.log :=
      processAll_preserves recs ⟨[], 0, true⟩ st (fun _ => List.chain'_nil)
        (Or.inl rfl) hall hpt2
    have habut2 : PhasesAbut (finishLog st.log) := by
      unfold finishLog
      by_cases hfin : ((st.log.getLastD default).Duration = -1 ∧ st.log ≠ [])
      · rw [if_pos hfin]
        exact PhasesAbut_dropLast st.log habut
      · rw [if_neg hfin]
        exact habut
    intro i hi
    have hlen : i + 1 < (finishLog st.log).length := hi
    have hget := (List.chain'_iff_get.mp habut2) i (by omega)
    unfold abutRel at hget
    show ((finishLog st.log).getD i default).Begin +
        ((finishLog st.log).getD i default).Duration =
      ((finishLog st.log).getD (i + 1) default).Begin
    rw [getD_eq_get _ i (by omega), getD_eq_get _ (i + 1) (by omega)]
    exact hget

/-- Witness for C2: a single Go 1.4 cycle with absolute start time 0 parses
to two abutting phases. -/
theorem parsed_phases_abut_witness :
    ((GcStats.mk [⟨0, 2000, .PhaseSweepTerm, 1, 1, 1, true⟩,
        ⟨2000, 2000, .PhaseMarkTerm, 1, 1, 1, true⟩] 1 true).log.getD 0 default).Begin +
      ((GcStats.mk [⟨0, 2000, .PhaseSweepTerm, 1, 1, 1, true⟩,
        ⟨2000, 2000, .PhaseMarkTerm, 1, 1, 1, true⟩] 1 true).log.getD 0 default).Duration =
    ((GcStats.mk [⟨0, 2000, .PhaseSweepTerm, 1, 1, 1, true⟩,
        ⟨2000, 2000, .PhaseMarkTerm, 1, 1, 1, true⟩] 1 true).log.getD 1 default).Begin :=
  parsed_phases_abut [.gc14 1 1 1 1 1 (some 0)]
    (GcStats.mk [⟨0, 2000, .PhaseSweepTerm, 1, 1, 1, true⟩,
        ⟨2000, 2000, .PhaseMarkTerm, 1, 1, 1, true⟩] 1 true)
    (by decide) rfl 0 (by decide)

/-! ### Claim C3: MUD total mass is one -/

theorem getLastD_irrel (l : List Phase) (h : l ≠ []) (d1 d2 : Phase) :
    l.getLastD d1 = l.getLastD d2 := by
  rw [List.getLastD_eq_getLast?, List.getLastD_eq_getLast?,
    List.getLast?_eq_getLast l h]
  rfl

theorem getLastD_irrel_edge (l : List edge) (h : l ≠ []) (d1 d2 : edge) :
    l.getLastD d1 = l.getLastD d2 := by
  rw [List.getLastD_eq_getLast?, List.getLastD_eq_getLast?,
    List.getLast?_eq_getLast l h]
  rfl

/-- Closed form for the mass of the height-scan of a delta list. -/
theorem massE_toHeights (D : List edge) : ∀ h : ℚ, D ≠ [] →
    massE (toHeights h D) =
      h * ((D.getLastD default).x - (D.headD default).x) +
        sumY D * (D.getLastD default).x - sumYX D + sumD D := by
  induction D with
  | nil => intro h hne; exact absurd rfl hne
  | cons d rest ih =>
    intro h _
    match rest with
    | [] =>
      simp [toHeights, massE, sumY, sumYX, sumD]
    | d2 :: rest2 =>
      have hlast : ((d :: d2 :: rest2).getLastD default) =
          ((d2 :: rest2).getLastD default) := by
        rw [List.getLastD_cons]
        exact getLastD_irrel_edge (d2 :: rest2) (by simp) d default
      show massE (⟨d.x, h + d.y, d.dirac⟩ :: toHeights (h + d.y) (d2 :: rest2)) = _
      have hhd : toHeights (h + d.y) (d2 :: rest2) =
          ⟨d2.x, h + d.y + d2.y, d2.dirac⟩ :: toHeights (h + d.y + d2.y) rest2 := rfl
      rw [hhd]
      show (h + d.y) * (d2.x - d.x) + d.dirac +
          massE (⟨d2.x, h + d.y + d2.y, d2.dirac⟩ :: toHeights (h + d.y + d2.y) rest2) = _
      rw [← hhd, ih (h + d.y) (by simp), hlast]
      simp only [sumY, sumYX, sumD, List.map_cons, List.sum_cons, List.headD_cons]
      ring
theorem mergeRun_ne_nil (l : List edge) : ∀ cur : edge, mergeRun cur l ≠ [] := by
  induction l with
  | nil => intro cur; simp [mergeRun]
  | cons e rest ih =>
    intro cur
    rw [mergeRun]
    by_cases hx : e.x ≠ cur.x
    · rw [if_pos hx]
      by_cases hnz : cur.y ≠ 0 ∨ cur.dirac ≠ 0
      · rw [if_pos hnz]; simp
      · rw [if_neg hnz]; exact ih e
    · rw [if_neg hx]; exact ih _

/-- The merge loop preserves the three sums that determine total mass. -/
theorem mergeRun_sums (l : List edge) : ∀ cur : edge,
    sumY (mergeRun cur l) = cur.y + sumY l ∧
    sumYX (mergeRun cur l) = cur.y * cur.x + sumYX l ∧
    sumD (mergeRun cur l) = cur.dirac + sumD l := by
  induction l with
  | nil => intro cur; simp [mergeRun, sumY, sumYX, sumD]
  | cons e rest ih =>
    intro cur
    rw [mergeRun]
    by_cases hx : e.x ≠ cur.x
    · rw [if_pos hx]
      by_cases hnz : cur.y ≠ 0 ∨ cur.dirac ≠ 0
      · rw [if_pos hnz]
        obtain ⟨h1, h2, h3⟩ := ih e
        refine ⟨?_, ?_, ?_⟩
        · simp only [sumY, List.map_cons, List.sum_cons] at h1 ⊢
          rw [h1]
        · simp only [sumYX, List.map_cons, List.sum_cons] at h2 ⊢
          rw [h2]
        · simp only [sumD, List.map_cons, List.sum_cons] at h3 ⊢
          rw [h3]
      · rw [if_neg hnz]
        push_neg at hnz
        obtain ⟨hy, hd⟩ := hnz
        obtain ⟨h1, h2, h3⟩ := ih e
        refine ⟨?_, ?_, ?_⟩
        · simp only [sumY, List.map_cons, List.sum_cons] at h1 ⊢
          rw [h1, hy]; ring
        · simp only [sumYX, List.map_cons, List.sum_cons] at h2 ⊢
          rw [h2, hy]; ring
        · simp only [sumD, List.map_cons, List.sum_cons] at h3 ⊢
          rw [h3, hd]; ring
    · rw [if_neg hx]
      push_neg at hx
      obtain ⟨h1, h2, h3⟩ := ih ⟨cur.x, cur.y + e.y, cur.dirac + e.dirac⟩
      refine ⟨?_, ?_, ?_⟩
      · simp only [sumY, List.map_cons, List.sum_cons] at h1 ⊢
        rw [h1]; ring
      · simp only [sumYX, List.map_cons, List.sum_cons] at h2 ⊢
        rw [h2, hx]; ring
      · simp only [sumD, List.map_cons, List.sum_cons] at h3 ⊢
        rw [h3]; ring

theorem sortDeltas_sums (D : List edge) :
    sumY (sortDeltas D) = sumY D ∧ sumYX (sortDeltas D) = sumYX D ∧
    sumD (sortDeltas D) = sumD D := by
  have hperm : List.Perm (sortDeltas D) D := List.perm_insertionSort _ D
  unfold sumY sumYX sumD
  exact ⟨(hperm.map _).sum_eq, (hperm.map _).sum_eq, (hperm.map _).sum_eq⟩

/-- The delta edges of a uniform sum have zero total height change, and
their mass determinant `sumD - sumYX` is the total area. -/
theorem uniformDeltas_sums (us : List uniform) :
    sumY (uniformDeltas us) = 0 ∧
    sumD (uniformDeltas us) - sumYX (uniformDeltas us) = areaSum us := by
  induction us with
  | nil => constructor <;> simp [uniformDeltas, sumY, sumYX, sumD, areaSum]
  | cons u rest ih =>
    obtain ⟨ih1, ih2⟩ := ih
    simp only [sumY] at ih1
    simp only [sumD, sumYX, areaSum] at ih2
    by_cases hlr : u.l = u.r
    · have hdef : uniformDeltas (u :: rest) = ⟨u.l, 0, u.area⟩ :: uniformDeltas rest := by
        simp [uniformDeltas, hlr]
      constructor
      · rw [hdef]
        simp only [sumY, List.map_cons, List.sum_cons]
        rw [ih1]; ring
      · rw [hdef]
        simp only [sumD, sumYX, areaSum, List.map_cons, List.sum_cons]
        linarith [ih2]
    · have hdef : uniformDeltas (u :: rest) =
          ⟨u.l, u.area / (u.r - u.l), 0⟩ :: ⟨u.r, -(u.area / (u.r - u.l)), 0⟩ ::
            uniformDeltas rest := by
        simp [uniformDeltas, hlr]
      have hne : u.r - u.l ≠ 0 := fun hc => hlr (by linarith)
      constructor
      · rw [hdef]
        simp only [sumY, List.map_cons, List.sum_cons]
        rw [ih1]; ring
      · rw [hdef]
        simp only [sumD, sumYX, areaSum, List.map_cons, List.sum_cons]
        have hexp : u.area / (u.r - u.l) * u.r - u.area / (u.r - u.l) * u.l = u.area := by
          rw [← mul_sub]
          exact div_mul_cancel₀ u.area hne
        linarith [ih2, hexp]

/-- The canonical edge list of a uniform sum carries total mass equal to the
total input area. -/
theorem uniformSumToEdges_mass (us : List uniform) (hne : us ≠ []) :
    massE (uniformSumToEdges us) = areaSum us := by
  have hdne : uniformDeltas us ≠ [] := by
    match us, hne with
    | u :: rest, _ =>
      by_cases hlr : u.l = u.r <;> simp [uniformDeltas, hlr]
  have hsne : sortDeltas (uniformDeltas us) ≠ [] := by
    intro hc
    have := (List.perm_insertionSort (fun a b : edge => a.x ≤ b.x) (uniformDeltas us)).length_eq
    rw [show sortDeltas (uniformDeltas us) = _ from rfl] at hc
    unfold sortDeltas at hc
    rw [hc] at this
    simp at this
    exact hdne (List.length_eq_zero.mp this.symm)
  rw [uniformSumToEdges, if_neg hne]
  rcases hs : sortDeltas (uniformDeltas us) with _ | ⟨d, rest⟩
  · exact absurd hs hsne
  · obtain ⟨m1, m2, m3⟩ := mergeRun_sums rest d
    obtain ⟨s1, s2, s3⟩ := sortDeltas_sums (uniformDeltas us)
    obtain ⟨u1, u2⟩ := uniformDeltas_sums us
    have hsY : sumY (d :: rest) = sumY (uniformDeltas us) := by rw [← hs]; exact s1
    have hsYX : sumYX (d :: rest) = sumYX (uniformDeltas us) := by rw [← hs]; exact s2
    have hsD : sumD (d :: rest) = sumD (uniformDeltas us) := by rw [← hs]; exact s3
    have hmY : sumY (mergeRun d rest) = 0 := by
      rw [m1]
      have : sumY (d :: rest) = d.y + sumY rest := by
        simp [sumY, List.map_cons, List.sum_cons]
      rw [hsY, u1] at this
      linarith
    have hmass := massE_toHeights (mergeRun d rest) 0 (mergeRun_ne_nil rest d)
    rw [hmass, hmY]
    have hYX : sumYX (mergeRun d rest) = sumYX (uniformDeltas us) := by
      rw [m2, ← hsYX]
      simp [sumYX, List.map_cons, List.sum_cons]
    have hD : sumD (mergeRun d rest) = sumD (uniformDeltas us) := by
      rw [m3, ← hsD]
      simp [sumD, List.map_cons, List.sum_cons]
    rw [hYX, hD]
    linarith [u2]
theorem advanceLe_ge (log : List Phase) (v : ℤ) : ∀ i, i ≤ advanceLe log v i := by
  intro i
  induction i using advanceLe.induct log v with
  | case1 i h hle ih =>
    rw [advanceLe, dif_pos h, if_pos hle]
    omega
  | case2 i h hle =>
    rw [advanceLe, dif_pos h, if_neg hle]
  | case3 i h =>
    rw [advanceLe, dif_neg h]

/-- Every index stepped over by the advance loop ends at or before `v`. -/
theorem advanceLe_dropped (log : List Phase) (v : ℤ) : ∀ i k, i ≤ k →
    k < advanceLe log v i → endT (log.getD k default) ≤ v := by
  intro i
  induction i using advanceLe.induct log v with
  | case1 i h hle ih =>
    intro k hik hk
    rw [advanceLe, dif_pos h, if_pos hle] at hk
    by_cases hki : k = i
    · subst hki
      rwa [List.getD_eq_getElem?_getD, List.getElem?_eq_getElem h]
    · exact ih k (by omega) hk
  | case2 i h hle =>
    intro k hik hk
    rw [advanceLe, dif_pos h, if_neg hle] at hk
    omega
  | case3 i h =>
    intro k hik hk
    rw [advanceLe, dif_neg h] at hk
    omega

/-- The advance loop never passes an index whose phase ends after `v`. -/
theorem advanceLe_le_of_gt (log : List Phase) (v : ℤ) (i j : Nat)
    (hij : i ≤ j) (hj : j < log.length) (hgt : v < endT (log.getD j default)) :
    advanceLe log v i ≤ j := by
  by_contra hc
  have := advanceLe_dropped log v i j hij (by omega)
  omega

/-- When the advance loop stops in bounds, the phase at the stop index ends
after `v`. -/
theorem advanceLe_stop (log : List Phase) (v : ℤ) : ∀ i,
    advanceLe log v i < log.length →
    v < endT (log.getD (advanceLe log v i) default) := by
  intro i
  induction i using advanceLe.induct log v with
  | case1 i h hle ih =>
    rw [advanceLe, dif_pos h, if_pos hle]
    exact ih
  | case2 i h hle =>
    rw [advanceLe, dif_pos h, if_neg hle]
    intro _
    rw [List.getD_eq_getElem?_getD, List.getElem?_eq_getElem h, Option.getD_some]
    omega
  | case3 i h =>
    rw [advanceLe, dif_neg h]
    intro hlt
    exact absurd hlt h

theorem getD_mem_of_lt (log : List Phase) (k : Nat) (h : k < log.length) :
    log.getD k default ∈ log := by
  rw [List.getD_eq_getElem?_getD, List.getElem?_eq_getElem h, Option.getD_some]
  exact List.getElem_mem h

/-- The abutment chain in `getD` form. -/
theorem abut_getD (log : List Phase) (habut : PhasesAbut log) (k : Nat)
    (hk : k + 1 < log.length) :
    (log.getD k default).Begin + (log.getD k default).Duration =
      (log.getD (k + 1) default).Begin := by
  have hstep := (List.chain'_iff_get.mp habut) k (by omega)
  unfold abutRel at hstep
  rw [getD_eq_get log k (by omega), getD_eq_get log (k + 1) (by omega)]
  exact hstep

/-- In an abutting log with nonnegative durations, begins are monotone. -/
theorem begin_mono (log : List Phase) (habut : PhasesAbut log)
    (hdur : ∀ p ∈ log, 0 ≤ p.Duration) :
    ∀ d i, i + d < log.length →
      (log.getD i default).Begin ≤ (log.getD (i + d) default).Begin := by
  intro d
  induction d with
  | zero => intro i _; simp
  | succ e ih =>
    intro i hlt
    have h1 : (log.getD i default).Begin ≤ (log.getD (i + e) default).Begin :=
      ih i (by omega)
    have hstep := abut_getD log habut (i + e) (by omega)
    have hd : 0 ≤ (log.getD (i + e) default).Duration :=
      hdur _ (getD_mem_of_lt log (i + e) (by omega))
    have heq : i + (e + 1) = (i + e) + 1 := by omega
    rw [heq]
    omega

/-- In an abutting log with nonnegative durations, every phase ends at or
before the last phase's end. -/
theorem endT_le_last (log : List Phase) (habut : PhasesAbut log)
    (hdur : ∀ p ∈ log, 0 ≤ p.Duration) (hne : log ≠ []) :
    ∀ k, k < log.length →
      endT (log.getD k default) ≤ endT (log.getLastD default) := by
  intro k hk
  have hpos := List.length_pos.mpr hne
  have hlast : log.getLastD default = log.getD (log.length - 1) default := by
    rw [List.getLastD_eq_getLast?, List.getLast?_eq_getLast log hne, Option.getD_some,
      getD_eq_get log (log.length - 1) (by omega)]
    exact List.getLast_eq_get log hne
  by_cases hkl : k = log.length - 1
  · subst hkl
    rw [hlast]
  · have hk2 : k + 1 < log.length := by omega
    have hstep := abut_getD log habut k (by omega)
    have hmono := begin_mono log habut hdur (log.length - 1 - (k + 1)) (k + 1)
      (by omega)
    have heq : k + 1 + (log.length - 1 - (k + 1)) = log.length - 1 := by omega
    rw [heq] at hmono
    have hd : 0 ≤ (log.getD (log.length - 1) default).Duration :=
      hdur _ (getD_mem_of_lt log (log.length - 1) (by omega))
    rw [hlast]
    unfold endT
    omega

/-- Each iteration of the sliding-window loop covers `dur ≥ 1` nanoseconds of
the sliding interval, and the emitted areas sum to the covered fraction. -/
theorem mudLoop_area_sum (log : List Phase) (w first lastBegin : ℤ)
    (habut : PhasesAbut log) (hdur : ∀ p ∈ log, 0 ≤ p.Duration) (hne : log ≠ [])
    (hw : 0 ≤ w) (hlb : lastBegin = endT (log.getLastD default) - w) :
    ∀ (fuel : Nat) (b : ℤ) (bp ep : Nat),
      first ≤ b → b ≤ lastBegin →
      (∀ k, k < bp → endT (log.getD k default) ≤ b) → bp ≤ log.length →
      (∀ k, k < ep → endT (log.getD k default) ≤ b + w) → ep ≤ log.length →
      (lastBegin - b).toNat < fuel →
      ((mudLoop log w first lastBegin fuel b bp ep).map fun u => u.area).sum =
        ((lastBegin - b : ℤ) : ℚ) / ((lastBegin - first : ℤ) : ℚ) := by
  intro fuel
  induction fuel with
  | zero => intro b bp ep _ _ _ _ _ _ hf; omega
  | succ fuel ih =>
    intro b bp ep hfb hble hbp hbpl hep hepl hf
    have hpos := List.length_pos.mpr hne
    have hlastD : log.getLastD default = log.getD (log.length - 1) default := by
      rw [List.getLastD_eq_getLast?, List.getLast?_eq_getLast log hne, Option.getD_some,
        getD_eq_get log (log.length - 1) (by omega)]
      exact List.getLast_eq_get log hne
    by_cases hblt : b < lastBegin
    · rw [mudLoop, if_pos hblt]
      have hlastgt : b < endT (log.getD (log.length - 1) default) := by
        rw [← hlastD]; omega
      have hlastgt2 : b + w < endT (log.getD (log.length - 1) default) := by
        rw [← hlastD]; omega
      have hbpl2 : bp ≤ log.length - 1 := by
        by_contra hc
        have := hbp (log.length - 1) (by omega)
        omega
      have hepl2 : ep ≤ log.length - 1 := by
        by_contra hc
        have := hep (log.length - 1) (by omega)
        omega
      have hbp2le : advanceLe log b bp ≤ log.length - 1 :=
        advanceLe_le_of_gt log b bp (log.length - 1) (by omega) (by omega) hlastgt
      have hep2le : advanceLe log (b + w) ep ≤ log.length - 1 :=
        advanceLe_le_of_gt log (b + w) ep (log.length - 1) (by omega) (by omega) hlastgt2
      have hbp2gt : b < endT (log.getD (advanceLe log b bp) default) :=
        advanceLe_stop log b bp (by omega)
      have hep2gt : b + w < endT (log.getD (advanceLe log (b + w) ep) default) :=
        advanceLe_stop log (b + w) ep (by omega)
      have hep2end : endT (log.getD (advanceLe log (b + w) ep) default) ≤
          endT (log.getLastD default) :=
        endT_le_last log habut hdur hne (advanceLe log (b + w) ep) (by omega)
      have hdropb : ∀ k, k < advanceLe log b bp → endT (log.getD k default) ≤ b := by
        intro k hk
        by_cases hkbp : k < bp
        · exact hbp k hkbp
        · exact advanceLe_dropped log b bp k (by omega) hk
      have hdrope : ∀ k, k < advanceLe log (b + w) ep →
          endT (log.getD k default) ≤ b + w := by
        intro k hk
        by_cases hkep : k < ep
        · exact hep k hkep
        · exact advanceLe_dropped log (b + w) ep k (by omega) hk
      have hdur1 : 1 ≤ min (phaseEndAt log (advanceLe log b bp) - b)
          (phaseEndAt log (advanceLe log (b + w) ep) - (b + w)) := by
        unfold phaseEndAt
        omega
      have hdur2 : b + min (phaseEndAt log (advanceLe log b bp) - b)
          (phaseEndAt log (advanceLe log (b + w) ep) - (b + w)) ≤ lastBegin := by
        unfold phaseEndAt
        omega
      have hih := ih (b + min (phaseEndAt log (advanceLe log b bp) - b)
          (phaseEndAt log (advanceLe log (b + w) ep) - (b + w)))
        (advanceLe log b bp) (advanceLe log (b + w) ep)
        (by omega) hdur2
        (fun k hk => le_trans (hdropb k hk) (by omega)) (by omega)
        (fun k hk => le_trans (hdrope k hk) (by omega)) (by omega)
        (by omega)
      simp only [List.map_cons, List.sum_cons]
      rw [hih]
      push_cast
      rw [div_add_div_same]
      congr 1
      ring
    · have hbeq : b = lastBegin := by omega
      rw [mudLoop, if_neg hblt]
      simp [hbeq]

/-- C3: for every `GcStats` with program times, a nonempty wellformed phase
log (abutting, nonnegative durations), and every window size `w ≥ 0`, the MUD
returned by `MutatorUtilizationDistribution` has total probability mass
exactly one: the sum over its edges of `y` times the width to the next edge,
plus all Dirac masses, equals 1 in exact arithmetic. -/
theorem mud_total_mass (s : GcStats) (w : ℤ)
    (hpt : s.progTimes = true) (hne : s.log ≠ [])
    (habut : PhasesAbut s.log)
    (hdur : ∀ p ∈ s.log, 0 ≤ p.Duration)
    (hw : 0 ≤ w) :
    massE (s.MutatorUtilizationDistribution w).edges = 1 := by
  have hpos := List.length_pos.mpr hne
  have hfl : (s.log.headD default).Begin ≤ endT (s.log.getLastD default) := by
    have hmono := begin_mono s.log habut hdur (s.log.length - 1) 0 (by omega)
    simp only [Nat.zero_add] at hmono
    have hhead : s.log.headD default = s.log.getD 0 default := by
      match s.log, hne with
      | p :: rest, _ => rfl
    have hlastD : s.log.getLastD default = s.log.getD (s.log.length - 1) default := by
      rw [List.getLastD_eq_getLast?, List.getLast?_eq_getLast s.log hne, Option.getD_some,
        getD_eq_get s.log (s.log.length - 1) (by omega)]
      exact List.getLast_eq_get s.log hne
    have hd : 0 ≤ (s.log.getD (s.log.length - 1) default).Duration :=
      hdur _ (getD_mem_of_lt s.log (s.log.length - 1) (by omega))
    rw [hhead, hlastD]
    unfold endT
    omega
  have hwcap : 0 ≤ min w (endT (s.log.getLastD default) - (s.log.headD default).Begin) := by
    omega
  simp only [GcStats.MutatorUtilizationDistribution, if_neg hne]
  by_cases hdeg : (s.log.headD default).Begin =
      endT (s.log.getLastD default) -
        min w (endT (s.log.getLastD default) - (s.log.headD default).Begin)
  · rw [if_pos hdeg]
    have hloop : mudLoop s.log
        (min w (endT (s.log.getLastD default) - (s.log.headD default).Begin))
        ((s.log.headD default).Begin)
        (endT (s.log.getLastD default) -
          min w (endT (s.log.getLastD default) - (s.log.headD default).Begin))
        ((endT (s.log.getLastD default) -
            min w (endT (s.log.getLastD default) - (s.log.headD default).Begin) -
          (s.log.headD default).Begin).toNat + 1)
        ((s.log.headD default).Begin) 0 0 = [] := by
      rw [mudLoop, if_neg (by omega)]
    rw [hloop, List.nil_append]
    rw [uniformSumToEdges_mass _ (by simp)]
    simp [areaSum]
  · rw [if_neg hdeg]
    have hlt : (s.log.headD default).Begin <
        endT (s.log.getLastD default) -
          min w (endT (s.log.getLastD default) - (s.log.headD default).Begin) := by
      omega
    have hsum := mudLoop_area_sum s.log
      (min w (endT (s.log.getLastD default) - (s.log.headD default).Begin))
      ((s.log.headD default).Begin)
      (endT (s.log.getLastD default) -
        min w (endT (s.log.getLastD default) - (s.log.headD default).Begin))
      habut hdur hne hwcap rfl
      ((endT (s.log.getLastD default) -
          min w (endT (s.log.getLastD default) - (s.log.headD default).Begin) -
        (s.log.headD default).Begin).toNat + 1)
      ((s.log.headD default).Begin) 0 0
      (le_refl _) (by omega) (by omega) (by omega) (by omega) (by omega) (by omega)
    have hne2 : mudLoop s.log
        (min w (endT (s.log.getLastD default) - (s.log.headD default).Begin))
        ((s.log.headD default).Begin)
        (endT (s.log.getLastD default) -
          min w (endT (s.log.getLastD default) - (s.log.headD default).Begin))
        ((endT (s.log.getLastD default) -
            min w (endT (s.log.getLastD default) - (s.log.headD default).Begin) -
          (s.log.headD default).Begin).toNat + 1)
        ((s.log.headD default).Begin) 0 0 ≠ [] := by
      intro hc
      rw [hc] at hsum
      simp only [List.map_nil, List.sum_nil] at hsum
      have hd0 : ((endT (s.log.getLastD default) -
          min w (endT (s.log.getLastD default) - (s.log.headD default).Begin) -
            (s.log.headD default).Begin : ℤ) : ℚ) ≠ 0 := by
        exact_mod_cast (by omega : (endT (s.log.getLastD default) -
          min w (endT (s.log.getLastD default) - (s.log.headD default).Begin) -
            (s.log.headD default).Begin : ℤ) ≠ 0)
      rw [eq_comm, div_eq_zero_iff] at hsum
      rcases hsum with h | h
      · exact hd0 h
      · exact hd0 h
    rw [uniformSumToEdges_mass _ hne2]
    show areaSum _ = 1
    unfold areaSum
    rw [hsum]
    rw [div_self]
    exact_mod_cast (by omega : (endT (s.log.getLastD default) -
      min w (endT (s.log.getLastD default) - (s.log.headD default).Begin) -
        (s.log.headD default).Begin : ℤ) ≠ 0)

/-- Witness for C3: the quarters MUD at window 25 has total mass 1. -/
theorem mud_total_mass_witness :
    massE (statsQuarters.MutatorUtilizationDistribution 25).edges = 1 :=
  mud_total_mass statsQuarters 25 rfl (by simp [statsQuarters])
    (by simp [PhasesAbut, statsQuarters, List.chain'_cons, List.chain'_singleton, abutRel])
    (by intro p hp; fin_cases hp <;> decide) (by norm_num)

/-- In an abutting log with nonnegative durations, begins are pairwise
monotone. -/
theorem begins_pairwise (log : List Phase) (habut : PhasesAbut log)
    (hdur : ∀ p ∈ log, 0 ≤ p.Duration) :
    List.Pairwise (fun p q : Phase => p.Begin ≤ q.Begin) log := by
  rw [List.pairwise_iff_get]
  intro i j hij
  have hmono := begin_mono log habut hdur (j.val - i.val) i.val (by omega)
  have heq : i.val + (j.val - i.val) = j.val := by omega
  rw [heq] at hmono
  rw [getD_eq_get log i.val i.isLt, getD_eq_get log j.val j.isLt] at hmono
  exact hmono

/-- The skip/break loop of `muInWindow` computes the clean whole-log window
sums, provided begins are sorted and durations nonnegative. -/
theorem muScan_clean (b e : ℤ) (hlt : b < e) :
    ∀ log : List Phase, List.Pairwise (fun p q : Phase => p.Begin ≤ q.Begin) log →
    (∀ p ∈ log, 0 ≤ p.Duration) →
    muScan b e log = (cleanG b e log, ((cleanT b e log : ℤ) : ℚ)) := by
  intro log
  induction log with
  | nil => intro _ _; simp [muScan, cleanG, cleanT]
  | cons p rest ih =>
    intro hpw hdur
    have hpw' : List.Pairwise (fun p q : Phase => p.Begin ≤ q.Begin) rest :=
      hpw.of_cons
    have hhead : ∀ q ∈ rest, p.Begin ≤ q.Begin := (List.pairwise_cons.mp hpw).1
    have hdur' : ∀ q ∈ rest, 0 ≤ q.Duration := fun q hq =>
      hdur q (List.mem_cons_of_mem _ hq)
    have hdp : 0 ≤ p.Duration := hdur p (List.mem_cons_self _ _)
    rw [muScan]
    by_cases h1 : endT p < b
    · rw [if_pos h1, ih hpw' hdur']
      have hov : ov b e p = 0 := by
        unfold ov endT at *
        omega
      simp [cleanG, cleanT, hov]
    · by_cases h2 : e ≤ p.Begin
      · rw [if_neg h1, if_pos h2]
        have hz : ∀ q ∈ p :: rest, ov b e q = 0 := by
          intro q hq
          rcases List.mem_cons.mp hq with rfl | hq2
          · unfold ov
            omega
          · have := hhead q hq2
            unfold ov
            omega
        have hG : cleanG b e (p :: rest) = 0 := by
          unfold cleanG
          apply List.sum_eq_zero
          intro x hx
          obtain ⟨q, hq, rfl⟩ := List.mem_map.mp hx
          rw [hz q hq]
          simp
        have hT : cleanT b e (p :: rest) = 0 := by
          unfold cleanT
          apply List.sum_eq_zero
          intro x hx
          obtain ⟨q, hq, rfl⟩ := List.mem_map.mp hx
          rw [hz q hq]
          simp
        rw [hG, hT]
        simp
      · rw [if_neg h1, if_neg h2, ih hpw' hdur']
        have hov : ov b e p = min e (endT p) - max b p.Begin := by
          unfold ov endT at *
          omega
        unfold cleanG cleanT
        simp only [List.map_cons, List.sum_cons]
        rw [hov, Prod.mk.injEq]
        constructor
        · push_cast
          ring
        · push_cast
          ring

/-- A prefix of phases ending at or before `b` contributes nothing to the
window sums. -/
theorem clean_prefix_zero (b e : ℤ) (l1 l2 : List Phase)
    (h : ∀ q ∈ l1, endT q ≤ b) :
    cleanG b e (l1 ++ l2) = cleanG b e l2 ∧ cleanT b e (l1 ++ l2) = cleanT b e l2 := by
  have hz : ∀ q ∈ l1, ov b e q = 0 := by
    intro q hq
    have := h q hq
    unfold ov
    omega
  constructor
  · unfold cleanG
    rw [List.map_append, List.sum_append]
    have : (l1.map fun p =>
        (if p.STW then (p.Gomaxprocs : ℚ) else p.GCProcs) * ((ov b e p : ℤ) : ℚ)).sum = 0 := by
      apply List.sum_eq_zero
      intro x hx
      obtain ⟨q, hq, rfl⟩ := List.mem_map.mp hx
      rw [hz q hq]
      simp
    rw [this, zero_add]
  · unfold cleanT
    rw [List.map_append, List.sum_append]
    have : (l1.map fun p => p.Gomaxprocs * ov b e p).sum = 0 := by
      apply List.sum_eq_zero
      intro x hx
      obtain ⟨q, hq, rfl⟩ := List.mem_map.mp hx
      rw [hz q hq]
      simp
    rw [this, zero_add]

/-- Elements of a dropped prefix, in indexed form. -/
theorem mem_take_endT (log : List Phase) (j : Nat) (b : ℤ)
    (hdrop : ∀ k, k < j → endT (log.getD k default) ≤ b) :
    ∀ q ∈ log.take j, endT q ≤ b := by
  intro q hq
  obtain ⟨i, hi, hqe⟩ := List.mem_iff_getElem.mp hq
  have hi2 : i < j ∧ i < log.length := by
    simpa [List.length_take] using hi
  have hg : (log.take j)[i] = log[i] := by rw [List.getElem_take]
  have := hdrop i hi2.1
  rw [List.getD_eq_getElem?_getD, List.getElem?_eq_getElem hi2.2, Option.getD_some] at this
  rw [← hqe, hg]
  exact this

/-- `muInWindow` on any slice whose dropped prefix lies entirely before the
window agrees with the slice-independent utilization `muF` of the whole
log. -/
theorem muInWindow_drop (log : List Phase) (b e : ℤ) (hlt : b < e) (j : Nat)
    (hdrop : ∀ k, k < j → endT (log.getD k default) ≤ b)
    (habut : PhasesAbut log) (hdur : ∀ p ∈ log, 0 ≤ p.Duration) :
    muInWindow b e (log.drop j) = muF log b e := by
  have hpw := begins_pairwise log habut hdur
  have hpwd : List.Pairwise (fun p q : Phase => p.Begin ≤ q.Begin) (log.drop j) :=
    hpw.sublist (List.drop_sublist j log)
  have hdurd : ∀ p ∈ log.drop j, 0 ≤ p.Duration := fun p hp =>
    hdur p ((List.drop_sublist j log).mem hp)
  rw [muInWindow]
  simp only [if_neg (ne_of_lt hlt)]
  rw [muScan_clean b e hlt _ hpwd hdurd]
  have hsplit := clean_prefix_zero b e (log.take j) (log.drop j)
    (mem_take_endT log j b hdrop)
  rw [List.take_append_drop] at hsplit
  rw [muF, ← hsplit.1, ← hsplit.2]

/-- Coverage: on an abutting log, overlaps with a window lying inside the
log's extent sum to the full window width (measured from the later of `b` and
the log's first begin). -/
theorem ovSum_cover : ∀ (log : List Phase), PhasesAbut log →
    (∀ p ∈ log, 0 ≤ p.Duration) → ∀ b e : ℤ, b ≤ e →
    log ≠ [] → (log.headD default).Begin ≤ e → e ≤ endT (log.getLastD default) →
    ovSum b e log = e - max b ((log.headD default).Begin) := by
  intro log
  induction log with
  | nil => intro _ _ _ _ _ hne _ _; exact absurd rfl hne
  | cons p rest ih =>
    intro habut hdur b e hbe _ hheade helast
    rcases rest with _ | ⟨q, rest2⟩
    · simp only [List.headD_cons] at hheade ⊢
      have hlast : ([p] : List Phase).getLastD default = p := by simp
      rw [hlast] at helast
      unfold ovSum
      simp only [List.map_cons, List.map_nil, List.sum_cons, List.sum_nil, add_zero]
      unfold ov
      omega
    · have hchain := List.chain'_cons.mp habut
      have habq : endT p = q.Begin := hchain.1
      have hlast : (p :: q :: rest2).getLastD default = (q :: rest2).getLastD default := by
        rw [List.getLastD_eq_getLast?, List.getLastD_eq_getLast?, List.getLast?_cons_cons]
      rw [hlast] at helast
      have hdp : 0 ≤ p.Duration := hdur p (List.mem_cons_self _ _)
      have hdur2 : ∀ r ∈ q :: rest2, 0 ≤ r.Duration := fun r hr =>
        hdur r (List.mem_cons_of_mem _ hr)
      simp only [List.headD_cons] at hheade ⊢
      unfold ovSum
      simp only [List.map_cons, List.sum_cons]
      by_cases he : e ≤ endT p
      · have hpov : ov b e p = e - max b p.Begin := by
          unfold ov
          omega
        have hpw : List.Pairwise (fun r s : Phase => r.Begin ≤ s.Begin) (q :: rest2) :=
          (begins_pairwise _ habut hdur).of_cons
        have hq : ∀ r ∈ q :: rest2, q.Begin ≤ r.Begin := by
          intro r hr
          rcases List.mem_cons.mp hr with rfl | hr2
          · exact le_refl _
          · exact (List.pairwise_cons.mp hpw).1 r hr2
        have hz : ((q :: rest2).map fun r => ov b e r).sum = 0 := by
          apply List.sum_eq_zero
          intro x hx
          obtain ⟨r, hr, rfl⟩ := List.mem_map.mp hx
          have := hq r hr
          unfold ov
          omega
        simp only [List.map_cons, List.sum_cons] at hz
        omega
      · have hih := ih hchain.2 hdur2 b e hbe (List.cons_ne_nil _ _)
          (by simp only [List.headD_cons]; omega) helast
        unfold ovSum at hih
        simp only [List.headD_cons, List.map_cons, List.sum_cons] at hih
        unfold ov endT at *
        omega

/-- With at least one proc per phase, the total-time sum dominates the raw
overlap sum. -/
theorem cleanT_ge_ovSum (b e : ℤ) (log : List Phase)
    (hgmp : ∀ p ∈ log, 1 ≤ p.Gomaxprocs) :
    ovSum b e log ≤ cleanT b e log := by
  unfold ovSum cleanT
  induction log with
  | nil => simp
  | cons p rest ih =>
    simp only [List.map_cons, List.sum_cons]
    have h1 : ov b e p ≤ p.Gomaxprocs * ov b e p :=
      le_mul_of_one_le_left (le_max_left _ _) (hgmp p (List.mem_cons_self _ _))
    have h2 := ih fun q hq => hgmp q (List.mem_cons_of_mem _ hq)
    omega

/-- The collector sum is nonnegative on wellformed logs. -/
theorem cleanG_nonneg (b e : ℤ) (log : List Phase)
    (hgmp : ∀ p ∈ log, 1 ≤ p.Gomaxprocs) (hgcp : ∀ p ∈ log, 0 ≤ p.GCProcs) :
    0 ≤ cleanG b e log := by
  unfold cleanG
  apply List.sum_nonneg
  intro x hx
  obtain ⟨q, hq, rfl⟩ := List.mem_map.mp hx
  apply mul_nonneg
  · by_cases hstw : q.STW
    · simp only [hstw, if_true]
      have := hgmp q hq
      positivity
    · simp only [hstw, if_false]
      exact hgcp q hq
  · have : (0 : ℤ) ≤ ov b e q := le_max_left _ _
    exact_mod_cast this

/-- The total-time sum of a window inside the log's extent is positive. -/
theorem cleanT_pos (log : List Phase) (habut : PhasesAbut log)
    (hdur : ∀ p ∈ log, 0 ≤ p.Duration) (hgmp : ∀ p ∈ log, 1 ≤ p.Gomaxprocs)
    (hne : log ≠ []) (b e : ℤ) (hb : (log.headD default).Begin ≤ b) (hlt : b < e)
    (he : e ≤ endT (log.getLastD default)) :
    0 < cleanT b e log := by
  have hcov := ovSum_cover log habut hdur b e (le_of_lt hlt) hne (by omega) he
  have hT := cleanT_ge_ovSum b e log hgmp
  omega

/-- Utilization never exceeds 1 when the window has positive total time. -/
theorem muF_le_one (log : List Phase) (b e : ℤ) (hT : 0 < cleanT b e log)
    (hG : 0 ≤ cleanG b e log) : muF log b e ≤ 1 := by
  unfold muF
  have hTq : (0 : ℚ) < ((cleanT b e log : ℤ) : ℚ) := by exact_mod_cast hT
  rw [div_le_one hTq]
  linarith

/-- While neither window endpoint crosses a phase edge, the overlap of each
phase with the sliding window is an affine function of the slide offset. -/
theorem ov_affine (q : Phase) (b w δ Δ : ℤ) (hδ0 : 0 ≤ δ) (hδΔ : δ ≤ Δ)
    (hw : 0 ≤ w) (hdq : 0 ≤ q.Duration) (hok : SegOK b w Δ q) :
    (Δ : ℚ) * ((ov (b + δ) (b + w + δ) q : ℤ) : ℚ) =
      ((Δ - δ : ℤ) : ℚ) * ((ov b (b + w) q : ℤ) : ℚ) +
      (δ : ℚ) * ((ov (b + Δ) (b + w + Δ) q : ℤ) : ℚ) := by
  have hbe : q.Begin ≤ endT q := by unfold endT; omega
  rcases hok with h | h | h | h | h | h
  · have e1 : ov (b + δ) (b + w + δ) q = 0 := by unfold ov; omega
    have e2 : ov b (b + w) q = 0 := by unfold ov; omega
    have e3 : ov (b + Δ) (b + w + Δ) q = 0 := by unfold ov; omega
    rw [e1, e2, e3]
    push_cast
    ring
  · have e1 : ov (b + δ) (b + w + δ) q = endT q - b - δ := by unfold ov; omega
    have e2 : ov b (b + w) q = endT q - b := by unfold ov; omega
    have e3 : ov (b + Δ) (b + w + Δ) q = endT q - b - Δ := by unfold ov; omega
    rw [e1, e2, e3]
    push_cast
    ring
  · have e1 : ov (b + δ) (b + w + δ) q = endT q - q.Begin := by unfold ov; omega
    have e2 : ov b (b + w) q = endT q - q.Begin := by unfold ov; omega
    have e3 : ov (b + Δ) (b + w + Δ) q = endT q - q.Begin := by unfold ov; omega
    rw [e1, e2, e3]
    push_cast
    ring
  · have e1 : ov (b + δ) (b + w + δ) q = w := by unfold ov; omega
    have e2 : ov b (b + w) q = w := by unfold ov; omega
    have e3 : ov (b + Δ) (b + w + Δ) q = w := by unfold ov; omega
    rw [e1, e2, e3]
    push_cast
    ring
  · have e1 : ov (b + δ) (b + w + δ) q = b + w + δ - q.Begin := by unfold ov; omega
    have e2 : ov b (b + w) q = b + w - q.Begin := by unfold ov; omega
    have e3 : ov (b + Δ) (b + w + Δ) q = b + w + Δ - q.Begin := by unfold ov; omega
    rw [e1, e2, e3]
    push_cast
    ring
  · have e1 : ov (b + δ) (b + w + δ) q = 0 := by unfold ov; omega
    have e2 : ov b (b + w) q = 0 := by unfold ov; omega
    have e3 : ov (b + Δ) (b + w + Δ) q = 0 := by unfold ov; omega
    rw [e1, e2, e3]
    push_cast
    ring

/-- Pointwise affine decompositions sum. -/
theorem map_sum_affine (log : List Phase) (F G H : Phase → ℚ) (c d : ℚ)
    (h : ∀ q ∈ log, F q = c * G q + d * H q) :
    (log.map F).sum = c * (log.map G).sum + d * (log.map H).sum := by
  induction log with
  | nil => simp
  | cons p rest ih =>
    simp only [List.map_cons, List.sum_cons]
    rw [h p (List.mem_cons_self _ _), ih fun q hq => h q (List.mem_cons_of_mem _ hq)]
    ring

/-- The total-time sum, cast to `ℚ`, as a sum of casts. -/
theorem cleanT_cast (b e : ℤ) (log : List Phase) :
    ((cleanT b e log : ℤ) : ℚ) =
      (log.map fun p => (p.Gomaxprocs : ℚ) * ((ov b e p : ℤ) : ℚ)).sum := by
  unfold cleanT
  induction log with
  | nil => simp
  | cons p rest ih =>
    simp only [List.map_cons, List.sum_cons]
    push_cast
    push_cast at ih
    rw [ih]

/-- The collector sum is affine in the slide offset over a clean segment. -/
theorem cleanG_affine (log : List Phase) (b w δ Δ : ℤ) (hδ0 : 0 ≤ δ)
    (hδΔ : δ ≤ Δ) (hw : 0 ≤ w) (hdur : ∀ p ∈ log, 0 ≤ p.Duration)
    (hok : ∀ q ∈ log, SegOK b w Δ q) :
    (Δ : ℚ) * cleanG (b + δ) (b + w + δ) log =
      ((Δ - δ : ℤ) : ℚ) * cleanG b (b + w) log +
      (δ : ℚ) * cleanG (b + Δ) (b + w + Δ) log := by
  unfold cleanG
  have key := map_sum_affine log
    (fun q => (Δ : ℚ) *
      ((if q.STW then (q.Gomaxprocs : ℚ) else q.GCProcs) * ((ov (b + δ) (b + w + δ) q : ℤ) : ℚ)))
    (fun q =>
      (if q.STW then (q.Gomaxprocs : ℚ) else q.GCProcs) * ((ov b (b + w) q : ℤ) : ℚ))
    (fun q =>
      (if q.STW then (q.Gomaxprocs : ℚ) else q.GCProcs) * ((ov (b + Δ) (b + w + Δ) q : ℤ) : ℚ))
    ((Δ - δ : ℤ) : ℚ) (δ : ℚ)
    (by
      intro q hq
      have haff := ov_affine q b w δ Δ hδ0 hδΔ hw (hdur q hq) (hok q hq)
      set coef := (if q.STW then (q.Gomaxprocs : ℚ) else q.GCProcs)
      calc (Δ : ℚ) * (coef * ((ov (b + δ) (b + w + δ) q : ℤ) : ℚ))
          = coef * ((Δ : ℚ) * ((ov (b + δ) (b + w + δ) q : ℤ) : ℚ)) := by ring
        _ = coef * (((Δ - δ : ℤ) : ℚ) * ((ov b (b + w) q : ℤ) : ℚ) +
              (δ : ℚ) * ((ov (b + Δ) (b + w + Δ) q : ℤ) : ℚ)) := by rw [haff]
        _ = _ := by ring)
  rw [← key, List.sum_map_mul_left]

/-- The total-time sum (in `ℚ`) is affine in the slide offset over a clean
segment. -/
theorem cleanT_affine (log : List Phase) (b w δ Δ : ℤ) (hδ0 : 0 ≤ δ)
    (hδΔ : δ ≤ Δ) (hw : 0 ≤ w) (hdur : ∀ p ∈ log, 0 ≤ p.Duration)
    (hok : ∀ q ∈ log, SegOK b w Δ q) :
    (Δ : ℚ) * ((cleanT (b + δ) (b + w + δ) log : ℤ) : ℚ) =
      ((Δ - δ : ℤ) : ℚ) * ((cleanT b (b + w) log : ℤ) : ℚ) +
      (δ : ℚ) * ((cleanT (b + Δ) (b + w + Δ) log : ℤ) : ℚ) := by
  rw [cleanT_cast, cleanT_cast, cleanT_cast]
  have key := map_sum_affine log
    (fun q => (Δ : ℚ) * ((q.Gomaxprocs : ℚ) * ((ov (b + δ) (b + w + δ) q : ℤ) : ℚ)))
    (fun q => (q.Gomaxprocs : ℚ) * ((ov b (b + w) q : ℤ) : ℚ))
    (fun q => (q.Gomaxprocs : ℚ) * ((ov (b + Δ) (b + w + Δ) q : ℤ) : ℚ))
    ((Δ - δ : ℤ) : ℚ) (δ : ℚ)
    (by
      intro q hq
      have haff := ov_affine q b w δ Δ hδ0 hδΔ hw (hdur q hq) (hok q hq)
      calc (Δ : ℚ) * ((q.Gomaxprocs : ℚ) * ((ov (b + δ) (b + w + δ) q : ℤ) : ℚ))
          = (q.Gomaxprocs : ℚ) * ((Δ : ℚ) * ((ov (b + δ) (b + w + δ) q : ℤ) : ℚ)) := by ring
        _ = (q.Gomaxprocs : ℚ) * (((Δ - δ : ℤ) : ℚ) * ((ov b (b + w) q : ℤ) : ℚ) +
              (δ : ℚ) * ((ov (b + Δ) (b + w + Δ) q : ℤ) : ℚ)) := by rw [haff]
        _ = _ := by ring)
  rw [← key, List.sum_map_mul_left]

/-- Interpolation: a value affinely interpolated between two ratios with
positive denominators stays above any common lower bound of the ratios. -/
theorem ratio_between (T0 T1 Td N0 N1 Nd m dl dd : ℚ) (hΔ : 0 < dd)
    (hδ0 : 0 ≤ dl) (hδΔ : dl ≤ dd)
    (hT : dd * Td = (dd - dl) * T0 + dl * T1)
    (hN : dd * Nd = (dd - dl) * N0 + dl * N1)
    (hT0 : 0 < T0) (hT1 : 0 < T1) (hm0 : m ≤ N0 / T0) (hm1 : m ≤ N1 / T1) :
    m ≤ Nd / Td := by
  have h1 : 0 ≤ (dd - dl) * T0 := mul_nonneg (by linarith) hT0.le
  have h2 : 0 ≤ dl * T1 := mul_nonneg hδ0 hT1.le
  have hsum : 0 < (dd - dl) * T0 + dl * T1 := by
    by_cases hd : dl < dd
    · have : 0 < (dd - dl) * T0 := mul_pos (by linarith) hT0
      linarith
    · have hde : dl = dd := le_antisymm hδΔ (not_lt.mp hd)
      rw [hde]
      have : 0 < dd * T1 := mul_pos hΔ hT1
      nlinarith
  have hTd : 0 < Td := by
    by_contra hc
    push_neg at hc
    have : dd * Td ≤ 0 := mul_nonpos_of_nonneg_of_nonpos hΔ.le hc
    linarith
  have k0 : m * T0 ≤ N0 := (le_div_iff hT0).mp hm0
  have k1 : m * T1 ≤ N1 := (le_div_iff hT1).mp hm1
  have k2 : (dd - dl) * (m * T0) ≤ (dd - dl) * N0 :=
    mul_le_mul_of_nonneg_left k0 (by linarith)
  have k3 : dl * (m * T1) ≤ dl * N1 := mul_le_mul_of_nonneg_left k1 hδ0
  have k4 : dd * (m * Td) ≤ dd * Nd := by
    have e1 : dd * (m * Td) = (dd - dl) * (m * T0) + dl * (m * T1) := by
      calc dd * (m * Td) = m * (dd * Td) := by ring
        _ = m * ((dd - dl) * T0 + dl * T1) := by rw [hT]
        _ = (dd - dl) * (m * T0) + dl * (m * T1) := by ring
    rw [e1, hN]
    linarith
  rw [le_div_iff hTd]
  exact le_of_mul_le_mul_left k4 hΔ

/-- A stopped advance index whose dropped prefix ends before `b` begins at or
before `b` (the first phase begins at the log's start; every later phase
begins where its predecessor ends). -/
theorem stop_contains (log : List Phase) (habut : PhasesAbut log) (b : ℤ)
    (j : Nat) (hj : j < log.length)
    (hdropped : ∀ k, k < j → endT (log.getD k default) ≤ b)
    (hfirst : (log.headD default).Begin ≤ b) :
    (log.getD j default).Begin ≤ b := by
  cases j with
  | zero =>
    have hhead : log.headD default = log.getD 0 default := by
      match log, hj with
      | p :: rest, _ => rfl
    rw [← hhead]
    exact hfirst
  | succ k =>
    have hab := abut_getD log habut k hj
    have := hdropped k (by omega)
    unfold endT at this
    omega

/-- Under the sliding-loop state facts, every phase of the log is clean for
the segment `[b, b+Δ)` of slide offsets. -/
theorem segment_ok (log : List Phase) (habut : PhasesAbut log)
    (hdur : ∀ p ∈ log, 0 ≤ p.Duration) (b w Δ : ℤ)
    (i1 i2 : Nat) (h12 : i1 ≤ i2) (h2len : i2 < log.length)
    (hdrop1 : ∀ k, k < i1 → endT (log.getD k default) ≤ b)
    (hdrop2 : ∀ k, k < i2 → endT (log.getD k default) ≤ b + w)
    (hb1 : (log.getD i1 default).Begin ≤ b)
    (hb2 : (log.getD i2 default).Begin ≤ b + w)
    (hΔ1 : b + Δ ≤ endT (log.getD i1 default))
    (hΔ2 : b + w + Δ ≤ endT (log.getD i2 default)) :
    ∀ q ∈ log, SegOK b w Δ q := by
  intro q hq
  obtain ⟨j, hj, hqe⟩ := List.mem_iff_getElem.mp hq
  have hqd : q = log.getD j default := by
    rw [List.getD_eq_getElem?_getD, List.getElem?_eq_getElem hj, Option.getD_some, hqe]
  rcases Nat.lt_or_ge j i1 with hji | hji
  · have := hdrop1 j hji
    rw [hqd]
    unfold SegOK
    omega
  · rcases Nat.lt_or_ge j i2 with hji2 | hji2
    · rcases Nat.eq_or_lt_of_le hji with heq | hlt
      · subst heq
        have hab := abut_getD log habut i1 (by omega)
        have hmono := begin_mono log habut hdur (i2 - (i1 + 1)) (i1 + 1) (by omega)
        rw [show i1 + 1 + (i2 - (i1 + 1)) = i2 by omega] at hmono
        rw [hqd]
        unfold SegOK endT at *
        omega
      · have hab1 := abut_getD log habut i1 (by omega)
        have hmono1 := begin_mono log habut hdur (j - (i1 + 1)) (i1 + 1) (by omega)
        rw [show i1 + 1 + (j - (i1 + 1)) = j by omega] at hmono1
        have habj := abut_getD log habut j (by omega)
        have hmono2 := begin_mono log habut hdur (i2 - (j + 1)) (j + 1) (by omega)
        rw [show j + 1 + (i2 - (j + 1)) = i2 by omega] at hmono2
        rw [hqd]
        unfold SegOK endT at *
        omega
    · rcases Nat.eq_or_lt_of_le hji2 with heq | hlt
      · subst heq
        rcases Nat.eq_or_lt_of_le h12 with heq1 | hlt1
        · subst heq1
          rw [hqd]
          unfold SegOK endT at *
          omega
        · have hab1 := abut_getD log habut i1 (by omega)
          have hmono := begin_mono log habut hdur (i2 - (i1 + 1)) (i1 + 1) (by omega)
          rw [show i1 + 1 + (i2 - (i1 + 1)) = i2 by omega] at hmono
          rw [hqd]
          unfold SegOK endT at *
          omega
      · have hab2 := abut_getD log habut i2 (by omega)
        have hmono := begin_mono log habut hdur (j - (i2 + 1)) (i2 + 1) (by omega)
        rw [show i2 + 1 + (j - (i2 + 1)) = j by omega] at hmono
        rw [hqd]
        unfold SegOK endT at *
        omega

/-- Over a clean segment, the utilization at any intermediate slide offset is
at least the smaller of the utilizations at the segment's two ends. -/
theorem muF_between (log : List Phase) (habut : PhasesAbut log)
    (hdur : ∀ p ∈ log, 0 ≤ p.Duration) (hgmp : ∀ p ∈ log, 1 ≤ p.Gomaxprocs)
    (hne : log ≠ []) (b w δ Δ : ℤ) (hw : 0 < w) (hΔ : 0 < Δ)
    (hδ0 : 0 ≤ δ) (hδΔ : δ ≤ Δ)
    (hfb : (log.headD default).Begin ≤ b)
    (hlast : b + w + Δ ≤ endT (log.getLastD default))
    (hok : ∀ q ∈ log, SegOK b w Δ q) :
    min (muF log b (b + w)) (muF log (b + Δ) (b + w + Δ)) ≤
      muF log (b + δ) (b + w + δ) := by
  have hT0 : 0 < cleanT b (b + w) log :=
    cleanT_pos log habut hdur hgmp hne b (b + w) hfb (by omega) (by omega)
  have hT1 : 0 < cleanT (b + Δ) (b + w + Δ) log :=
    cleanT_pos log habut hdur hgmp hne (b + Δ) (b + w + Δ) (by omega) (by omega)
      (by omega)
  have hT0q : (0 : ℚ) < ((cleanT b (b + w) log : ℤ) : ℚ) := by exact_mod_cast hT0
  have hT1q : (0 : ℚ) < ((cleanT (b + Δ) (b + w + Δ) log : ℤ) : ℚ) := by
    exact_mod_cast hT1
  have hTaff := cleanT_affine log b w δ Δ hδ0 hδΔ (by omega) hdur hok
  have hGaff := cleanG_affine log b w δ Δ hδ0 hδΔ (by omega) hdur hok
  have main := ratio_between
    (((cleanT b (b + w) log : ℤ) : ℚ))
    (((cleanT (b + Δ) (b + w + Δ) log : ℤ) : ℚ))
    (((cleanT (b + δ) (b + w + δ) log : ℤ) : ℚ))
    (((cleanT b (b + w) log : ℤ) : ℚ) - cleanG b (b + w) log)
    (((cleanT (b + Δ) (b + w + Δ) log : ℤ) : ℚ) - cleanG (b + Δ) (b + w + Δ) log)
    (((cleanT (b + δ) (b + w + δ) log : ℤ) : ℚ) - cleanG (b + δ) (b + w + δ) log)
    (min (muF log b (b + w)) (muF log (b + Δ) (b + w + Δ)))
    ((δ : ℚ)) ((Δ : ℚ))
    (by exact_mod_cast hΔ) (by exact_mod_cast hδ0) (by exact_mod_cast hδΔ)
    (by push_cast at hTaff ⊢; linear_combination hTaff)
    (by push_cast at hTaff hGaff ⊢; linear_combination hTaff - hGaff)
    hT0q hT1q
    (by exact min_le_left _ _)
    (by exact min_le_right _ _)
  exact main

/-- Core properties of the sliding-window loop: every emitted addend has
positive area, ordered endpoints, and its lower endpoint is the minimum of
the whole-log utilizations at two probe positions; and every slide position
in `[b, lastBegin]` is dominated by some addend's lower endpoint. -/
theorem mudLoop_props (log : List Phase) (w first lastBegin : ℤ)
    (habut : PhasesAbut log) (hdur : ∀ p ∈ log, 0 ≤ p.Duration)
    (hgmp : ∀ p ∈ log, 1 ≤ p.Gomaxprocs) (hne : log ≠ [])
    (hw : 0 < w) (hlb : lastBegin = endT (log.getLastD default) - w)
    (hfirst : first = (log.headD default).Begin) (hflb : first < lastBegin) :
    ∀ (fuel : Nat) (b : ℤ) (bp ep : Nat),
      first ≤ b → b ≤ lastBegin →
      (∀ k, k < bp → endT (log.getD k default) ≤ b) → bp ≤ ep →
      (∀ k, k < ep → endT (log.getD k default) ≤ b + w) → ep ≤ log.length →
      (lastBegin - b).toNat < fuel →
      ProbePos log w b →
      (∀ u ∈ mudLoop log w first lastBegin fuel b bp ep,
        0 < u.area ∧ u.l ≤ u.r ∧
        ∃ b1 b2, ProbePos log w b1 ∧ ProbePos log w b2 ∧
          u.l = min (muF log b1 (b1 + w)) (muF log b2 (b2 + w))) ∧
      (∀ p, b ≤ p → p ≤ lastBegin → b < lastBegin →
        ∃ u ∈ mudLoop log w first lastBegin fuel b bp ep,
          u.l ≤ muF log p (p + w)) := by
  intro fuel
  induction fuel with
  | zero => intro b bp ep _ _ _ _ _ _ hf _; omega
  | succ fuel ih =>
    intro b bp ep hfb hble hbp hbpep hep hepl hf hPP
    have hpos := List.length_pos.mpr hne
    have hlastD : log.getLastD default = log.getD (log.length - 1) default := by
      rw [List.getLastD_eq_getLast?, List.getLast?_eq_getLast log hne, Option.getD_some,
        getD_eq_get log (log.length - 1) (by omega)]
      exact List.getLast_eq_get log hne
    have hlastE : endT (log.getLastD default) =
        endT (log.getD (log.length - 1) default) := by
      rw [hlastD]
    by_cases hblt : b < lastBegin
    case neg =>
      rw [mudLoop, if_neg hblt]
      constructor
      · intro u hu
        exact absurd hu (List.not_mem_nil u)
      · intro p _ _ hlt
        omega
    case pos =>
      have hbpl : bp ≤ log.length := le_trans hbpep hepl
      have hlastgt : b < endT (log.getD (log.length - 1) default) := by
        rw [← hlastD]; omega
      have hlastgt2 : b + w < endT (log.getD (log.length - 1) default) := by
        rw [← hlastD]; omega
      have hbpl2 : bp ≤ log.length - 1 := by
        by_contra hc
        have := hbp (log.length - 1) (by omega)
        omega
      have hepl2 : ep ≤ log.length - 1 := by
        by_contra hc
        have := hep (log.length - 1) (by omega)
        omega
      have hbp2le : advanceLe log b bp ≤ log.length - 1 :=
        advanceLe_le_of_gt log b bp (log.length - 1) (by omega) (by omega) hlastgt
      have hep2le : advanceLe log (b + w) ep ≤ log.length - 1 :=
        advanceLe_le_of_gt log (b + w) ep (log.length - 1) (by omega) (by omega) hlastgt2
      have hbp2gt : b < endT (log.getD (advanceLe log b bp) default) :=
        advanceLe_stop log b bp (by omega)
      have hep2gt : b + w < endT (log.getD (advanceLe log (b + w) ep) default) :=
        advanceLe_stop log (b + w) ep (by omega)
      have hdropb : ∀ k, k < advanceLe log b bp → endT (log.getD k default) ≤ b := by
        intro k hk
        by_cases hkbp : k < bp
        · exact hbp k hkbp
        · exact advanceLe_dropped log b bp k (by omega) hk
      have hdrope : ∀ k, k < advanceLe log (b + w) ep →
          endT (log.getD k default) ≤ b + w := by
        intro k hk
        by_cases hkep : k < ep
        · exact hep k hkep
        · exact advanceLe_dropped log (b + w) ep k (by omega) hk
      have hbp2ep2 : advanceLe log b bp ≤ advanceLe log (b + w) ep := by
        apply advanceLe_le_of_gt log b bp (advanceLe log (b + w) ep)
          (le_trans hbpep (advanceLe_ge log (b + w) ep)) (by omega)
        omega
      have hep2end : endT (log.getD (advanceLe log (b + w) ep) default) ≤
          endT (log.getLastD default) :=
        endT_le_last log habut hdur hne (advanceLe log (b + w) ep) (by omega)
      set bp2 := advanceLe log b bp with hbp2def
      set ep2 := advanceLe log (b + w) ep with hep2def
      set dur := min (phaseEndAt log bp2 - b) (phaseEndAt log ep2 - (b + w)) with hdurdef
      have hpe1 : phaseEndAt log bp2 = endT (log.getD bp2 default) := rfl
      have hpe2 : phaseEndAt log ep2 = endT (log.getD ep2 default) := rfl
      have hdur1 : 1 ≤ dur := by
        rw [hdurdef]
        unfold phaseEndAt
        omega
      have hbdle : b + dur ≤ lastBegin := by
        rw [hdurdef]
        unfold phaseEndAt
        omega
      have hb1 : (log.getD bp2 default).Begin ≤ b :=
        stop_contains log habut b bp2 (by omega) hdropb (by omega)
      have hb2 : (log.getD ep2 default).Begin ≤ b + w :=
        stop_contains log habut (b + w) ep2 (by omega) hdrope (by omega)
      have hΔ1 : b + dur ≤ endT (log.getD bp2 default) := by
        rw [hdurdef]
        unfold phaseEndAt
        omega
      have hΔ2 : b + w + dur ≤ endT (log.getD ep2 default) := by
        rw [hdurdef]
        unfold phaseEndAt
        omega
      have hok := segment_ok log habut hdur b w dur bp2 ep2 hbp2ep2 (by omega)
        hdropb hdrope hb1 hb2 hΔ1 hΔ2
      have hPP2 : ProbePos log w (b + dur) := by
        by_cases hc : phaseEndAt log bp2 - b ≤ phaseEndAt log ep2 - (b + w)
        · have hde : dur = phaseEndAt log bp2 - b := by
            rw [hdurdef]
            exact min_eq_left hc
          have hbp2ne : bp2 ≠ log.length - 1 := by
            intro hcon
            have : endT (log.getD bp2 default) = b + dur := by
              rw [hde]
              unfold phaseEndAt
              ring
            rw [hcon] at this
            omega
          have hab := abut_getD log habut bp2 (by omega)
          refine ⟨bp2 + 1, by omega, Or.inl ⟨?_, ?_⟩⟩
          · have : endT (log.getD bp2 default) = b + dur := by
              rw [hde]
              unfold phaseEndAt
              ring
            unfold endT at this
            omega
          · omega
        · have hde : dur = phaseEndAt log ep2 - (b + w) := by
            rw [hdurdef]
            exact min_eq_right (le_of_not_le hc)
          refine ⟨ep2, by omega, Or.inr ⟨?_, ?_⟩⟩
          · rw [hde]
            unfold phaseEndAt
            ring
          · omega
      have hih := ih (b + dur) bp2 ep2 (by omega) hbdle
        (fun k hk => le_trans (hdropb k hk) (by omega)) hbp2ep2
        (fun k hk => le_trans (hdrope k hk) (by omega)) (by omega)
        (by omega) hPP2
      have hlutil : muInWindow b (b + w) (log.drop bp2) = muF log b (b + w) :=
        muInWindow_drop log b (b + w) (by omega) bp2 hdropb habut hdur
      have hrutil : muInWindow (b + dur) (b + w + dur) (log.drop bp2) =
          muF log (b + dur) (b + dur + w) := by
        rw [show b + dur + w = b + w + dur by ring]
        exact muInWindow_drop log (b + dur) (b + w + dur) (by omega) bp2
          (fun k hk => le_trans (hdropb k hk) (by omega)) habut hdur
      have hbtw : ∀ p, b ≤ p → p ≤ b + dur →
          min (muF log b (b + w)) (muF log (b + dur) (b + dur + w)) ≤
            muF log p (p + w) := by
        intro p hp1 hp2
        have h := muF_between log habut hdur hgmp hne b w (p - b) dur hw (by omega)
          (by omega) (by omega) (by omega)
          (by omega) hok
        rw [show b + (p - b) = p by ring, show b + w + (p - b) = p + w by ring] at h
        rw [show b + w + dur = b + dur + w by ring] at h
        exact h
      rw [mudLoop, if_pos hblt]
      simp only []
      rw [← hbp2def, ← hep2def, ← hdurdef]
      rw [if_neg (by omega : ¬ w = 0)]
      rw [hlutil, hrutil]
      have hminmax :
          (if muF log (b + dur) (b + dur + w) < muF log b (b + w)
            then (muF log (b + dur) (b + dur + w), muF log b (b + w))
            else (muF log b (b + w), muF log (b + dur) (b + dur + w))) =
          (min (muF log b (b + w)) (muF log (b + dur) (b + dur + w)),
           max (muF log b (b + w)) (muF log (b + dur) (b + dur + w))) := by
        split_ifs with h
        · rw [min_eq_right h.le, max_eq_left h.le]
        · rw [min_eq_left (not_lt.mp h), max_eq_right (not_lt.mp h)]
      rw [hminmax]
      have hareapos : (0 : ℚ) <
          (dur : ℚ) / ((lastBegin - first : ℤ) : ℚ) := by
        apply div_pos
        · exact_mod_cast (by omega : (0 : ℤ) < dur)
        · exact_mod_cast (by omega : (0 : ℤ) < lastBegin - first)
      constructor
      · intro u hu
        rcases List.mem_cons.mp hu with heq | hu2
        · subst heq
          refine ⟨hareapos, min_le_max, b, b + dur, hPP, hPP2, rfl⟩
        · exact hih.1 u hu2
      · intro p hp1 hp2 _
        by_cases hpd : p ≤ b + dur
        · refine ⟨_, List.mem_cons_self _ _, ?_⟩
          exact hbtw p hp1 hpd
        · obtain ⟨u, hu, hul⟩ := hih.2 p (by omega) hp2 (by omega)
          exact ⟨u, List.mem_cons_of_mem _ hu, hul⟩

/-- One step of the `MMU` loop when the `End()-w` window fits after the log's
first begin (the `leftIdx` advance runs and the second probe is folded in). -/
theorem mmuLoop_step_pos (log : List Phase) (w : ℤ) (i li : Nat) (mmu : ℚ)
    (h1 : i < log.length)
    (hcond : (log.headD default).Begin ≤ endT (log.getD i default) - w) :
    mmuLoop log w i li mmu = mmuLoop log w (i + 1)
      (advanceLt log (endT (log.getD i default) - w) li)
      (min (if (log.getD i default).Begin + w ≤ endT (log.getLastD default)
            then min mmu (muInWindow (log.getD i default).Begin
              ((log.getD i default).Begin + w) (log.drop i)) else mmu)
        (muInWindow (endT (log.getD i default) - w) (endT (log.getD i default))
          (log.drop (advanceLt log (endT (log.getD i default) - w) li)))) := by
  have hgd : log.getD i default = log[i] := by
    rw [List.getD_eq_getElem?_getD, List.getElem?_eq_getElem h1, Option.getD_some]
  rw [hgd] at hcond ⊢
  rw [mmuLoop, dif_pos h1]
  simp only []
  rw [if_pos hcond]

/-- One step of the `MMU` loop when the `End()-w` window does not fit. -/
theorem mmuLoop_step_neg (log : List Phase) (w : ℤ) (i li : Nat) (mmu : ℚ)
    (h1 : i < log.length)
    (hcond : ¬ (log.headD default).Begin ≤ endT (log.getD i default) - w) :
    mmuLoop log w i li mmu = mmuLoop log w (i + 1) li
      (if (log.getD i default).Begin + w ≤ endT (log.getLastD default)
       then min mmu (muInWindow (log.getD i default).Begin
         ((log.getD i default).Begin + w) (log.drop i)) else mmu) := by
  have hgd : log.getD i default = log[i] := by
    rw [List.getD_eq_getElem?_getD, List.getElem?_eq_getElem h1, Option.getD_some]
  rw [hgd] at hcond ⊢
  rw [mmuLoop, dif_pos h1]
  simp only []
  rw [if_neg hcond]

/-- The `MMU` loop returns its accumulator once `i` reaches the log's end. -/
theorem mmuLoop_stop (log : List Phase) (w : ℤ) (i li : Nat) (mmu : ℚ)
    (h1 : ¬ i < log.length) : mmuLoop log w i li mmu = mmu := by
  rw [mmuLoop, dif_neg h1]

theorem advanceLt_ge (log : List Phase) (v : ℤ) : ∀ i, i ≤ advanceLt log v i := by
  intro i
  induction i using advanceLt.induct log v with
  | case1 i h hlt ih =>
    rw [advanceLt, dif_pos h, if_pos hlt]
    omega
  | case2 i h hlt =>
    rw [advanceLt, dif_pos h, if_neg hlt]
  | case3 i h =>
    rw [advanceLt, dif_neg h]

/-- Every index stepped over by the strict advance loop ends strictly before
`v`. -/
theorem advanceLt_dropped (log : List Phase) (v : ℤ) : ∀ i k, i ≤ k →
    k < advanceLt log v i → endT (log.getD k default) < v := by
  intro i
  induction i using advanceLt.induct log v with
  | case1 i h hlt ih =>
    intro k hik hk
    rw [advanceLt, dif_pos h, if_pos hlt] at hk
    by_cases hki : k = i
    · subst hki
      rwa [List.getD_eq_getElem?_getD, List.getElem?_eq_getElem h, Option.getD_some]
    · exact ih k (by omega) hk
  | case2 i h hlt =>
    intro k hik hk
    rw [advanceLt, dif_pos h, if_neg hlt] at hk
    omega
  | case3 i h =>
    intro k hik hk
    rw [advanceLt, dif_neg h] at hk
    omega

/-- The `MMU` loop's result never exceeds its accumulator. -/
theorem mmuLoop_le_acc (log : List Phase) (w : ℤ) :
    ∀ (n i li : Nat) (acc : ℚ), log.length ≤ i + n →
      mmuLoop log w i li acc ≤ acc := by
  intro n
  induction n with
  | zero =>
    intro i li acc hn
    rw [mmuLoop_stop log w i li acc (by omega)]
  | succ n ih =>
    intro i li acc hn
    by_cases h1 : i < log.length
    · by_cases hc : (log.headD default).Begin ≤ endT (log.getD i default) - w
      · rw [mmuLoop_step_pos log w i li acc h1 hc]
        refine le_trans (ih (i + 1) _ _ (by omega)) ?_
        refine le_trans (min_le_left _ _) ?_
        split_ifs with h
        · exact min_le_left _ _
        · exact le_refl _
      · rw [mmuLoop_step_neg log w i li acc h1 hc]
        refine le_trans (ih (i + 1) _ _ (by omega)) ?_
        split_ifs with h
        · exact min_le_left _ _
        · exact le_refl _
    · rw [mmuLoop_stop log w i li acc h1]

/-- The `MMU` loop's result is bounded by every first-kind probe: the window
starting at a phase's begin, when it fits before the log's end. -/
theorem mmuLoop_le_probe1 (log : List Phase) (w : ℤ) :
    ∀ (n i li : Nat) (acc : ℚ) (j : Nat), log.length ≤ i + n → i ≤ j →
      j < log.length →
      (log.getD j default).Begin + w ≤ endT (log.getLastD default) →
      mmuLoop log w i li acc ≤ muInWindow (log.getD j default).Begin
        ((log.getD j default).Begin + w) (log.drop j) := by
  intro n
  induction n with
  | zero => intro i li acc j hn hij hj _; omega
  | succ n ih =>
    intro i li acc j hn hij hj hfit
    by_cases hji : i = j
    · subst hji
      have hval : ∀ m2 : ℚ,
          (if (log.getD i default).Begin + w ≤ endT (log.getLastD default)
           then min m2 (muInWindow (log.getD i default).Begin
             ((log.getD i default).Begin + w) (log.drop i)) else m2) ≤
          muInWindow (log.getD i default).Begin
            ((log.getD i default).Begin + w) (log.drop i) := by
        intro m2
        rw [if_pos hfit]
        exact min_le_right _ _
      by_cases hc : (log.headD default).Begin ≤ endT (log.getD i default) - w
      · rw [mmuLoop_step_pos log w i li acc hj hc]
        refine le_trans (mmuLoop_le_acc log w (log.length - i) (i + 1) _ _ (by omega)) ?_
        exact le_trans (min_le_left _ _) (hval acc)
      · rw [mmuLoop_step_neg log w i li acc hj hc]
        refine le_trans (mmuLoop_le_acc log w (log.length - i) (i + 1) _ _ (by omega)) ?_
        exact hval acc
    · have h1 : i < log.length := by omega
      by_cases hc : (log.headD default).Begin ≤ endT (log.getD i default) - w
      · rw [mmuLoop_step_pos log w i li acc h1 hc]
        exact ih (i + 1) _ _ j (by omega) (by omega) hj hfit
      · rw [mmuLoop_step_neg log w i li acc h1 hc]
        exact ih (i + 1) _ _ j (by omega) (by omega) hj hfit

/-- Phases before index `i` end at or before the begin of phase `i`. -/
theorem endT_prefix_le_begin (log : List Phase) (habut : PhasesAbut log)
    (hdur : ∀ p ∈ log, 0 ≤ p.Duration) (k i : Nat) (hk : k < i)
    (hi : i < log.length) :
    endT (log.getD k default) ≤ (log.getD i default).Begin := by
  have hab := abut_getD log habut k (by omega)
  have hmono := begin_mono log habut hdur (i - (k + 1)) (k + 1) (by omega)
  rw [show k + 1 + (i - (k + 1)) = i by omega] at hmono
  unfold endT
  omega

/-- `endT` is monotone along an abutting log with nonnegative durations. -/
theorem endT_mono_succ (log : List Phase) (habut : PhasesAbut log)
    (hdur : ∀ p ∈ log, 0 ≤ p.Duration) (i : Nat) (hi : i + 1 < log.length) :
    endT (log.getD i default) ≤ endT (log.getD (i + 1) default) := by
  have hab := abut_getD log habut i hi
  have hd : 0 ≤ (log.getD (i + 1) default).Duration :=
    hdur _ (getD_mem_of_lt log (i + 1) hi)
  unfold endT
  omega

/-- The `MMU` loop's result is bounded by every second-kind probe: the
whole-log utilization of the window ending at a phase's `End()`, when it fits
after the log's first begin. -/
theorem mmuLoop_le_probe2 (log : List Phase) (habut : PhasesAbut log)
    (hdur : ∀ p ∈ log, 0 ≤ p.Duration) (w : ℤ) (hw : 0 < w) :
    ∀ (n i li : Nat) (acc : ℚ) (j : Nat), log.length ≤ i + n → i ≤ j →
      j < log.length →
      (log.headD default).Begin ≤ endT (log.getD j default) - w →
      (∀ k, k < li → endT (log.getD k default) ≤ endT (log.getD i default) - w) →
      mmuLoop log w i li acc ≤
        muF log (endT (log.getD j default) - w) (endT (log.getD j default)) := by
  intro n
  induction n with
  | zero => intro i li acc j hn hij hj _ _; omega
  | succ n ih =>
    intro i li acc j hn hij hj hfit hinv
    by_cases hji : i = j
    · subst hji
      rw [mmuLoop_step_pos log w i li acc hj hfit]
      refine le_trans (mmuLoop_le_acc log w (log.length - i) (i + 1) _ _ (by omega)) ?_
      refine le_trans (min_le_right _ _) ?_
      have hdropli2 : ∀ k, k < advanceLt log (endT (log.getD i default) - w) li →
          endT (log.getD k default) ≤ endT (log.getD i default) - w := by
        intro k hk
        by_cases hkli : k < li
        · exact hinv k hkli
        · have := advanceLt_dropped log (endT (log.getD i default) - w) li k
            (by omega) hk
          omega
      have hB := muInWindow_drop log (endT (log.getD i default) - w)
        (endT (log.getD i default) - w + w) (by omega)
        (advanceLt log (endT (log.getD i default) - w) li) hdropli2 habut hdur
      rw [show endT (log.getD i default) - w + w = endT (log.getD i default) by ring]
        at hB
      rw [hB]
    · have h1 : i < log.length := by omega
      have hinv2 : ∀ k, k < li →
          endT (log.getD k default) ≤ endT (log.getD (i + 1) default) - w := by
        intro k hk
        have := hinv k hk
        have hmE := endT_mono_succ log habut hdur i (by omega)
        omega
      by_cases hc : (log.headD default).Begin ≤ endT (log.getD i default) - w
      · rw [mmuLoop_step_pos log w i li acc h1 hc]
        refine ih (i + 1) _ _ j (by omega) (by omega) hj hfit ?_
        intro k hk
        have hmE := endT_mono_succ log habut hdur i (by omega)
        by_cases hkli : k < li
        · have := hinv k hkli
          omega
        · have := advanceLt_dropped log (endT (log.getD i default) - w) li k
            (by omega) hk
          omega
      · rw [mmuLoop_step_neg log w i li acc h1 hc]
        exact ih (i + 1) _ _ j (by omega) (by omega) hj hfit hinv2

/-- Lower bound: if `m` is below the accumulator and below the whole-log
utilization at every probe position, it is below the `MMU` loop's result. -/
theorem mmuLoop_ge (log : List Phase) (habut : PhasesAbut log)
    (hdur : ∀ p ∈ log, 0 ≤ p.Duration) (w : ℤ) (hw : 0 < w) (m : ℚ)
    (hp1 : ∀ j, j < log.length →
      (log.getD j default).Begin + w ≤ endT (log.getLastD default) →
      m ≤ muF log (log.getD j default).Begin ((log.getD j default).Begin + w))
    (hp2 : ∀ j, j < log.length →
      (log.headD default).Begin ≤ endT (log.getD j default) - w →
      m ≤ muF log (endT (log.getD j default) - w) (endT (log.getD j default))) :
    ∀ (n i li : Nat) (acc : ℚ), log.length ≤ i + n →
      (∀ k, k < li → i < log.length →
        endT (log.getD k default) ≤ endT (log.getD i default) - w) →
      m ≤ acc → m ≤ mmuLoop log w i li acc := by
  intro n
  induction n with
  | zero =>
    intro i li acc hn _ hacc
    rw [mmuLoop_stop log w i li acc (by omega)]
    exact hacc
  | succ n ih =>
    intro i li acc hn hinv hacc
    by_cases h1 : i < log.length
    · have hmmu1 : m ≤
          (if (log.getD i default).Begin + w ≤ endT (log.getLastD default)
           then min acc (muInWindow (log.getD i default).Begin
             ((log.getD i default).Begin + w) (log.drop i)) else acc) := by
        split_ifs with hfit
        · refine le_min hacc ?_
          have hB := muInWindow_drop log (log.getD i default).Begin
            ((log.getD i default).Begin + w) (by omega) i
            (fun k hk => endT_prefix_le_begin log habut hdur k i hk h1) habut hdur
          rw [hB]
          exact hp1 i h1 hfit
        · exact hacc
      by_cases hc : (log.headD default).Begin ≤ endT (log.getD i default) - w
      · rw [mmuLoop_step_pos log w i li acc h1 hc]
        refine ih (i + 1) _ _ (by omega) ?_ ?_
        · intro k hk hlen2
          have hmE := endT_mono_succ log habut hdur i (by omega)
          by_cases hkli : k < li
          · have := hinv k hkli h1
            omega
          · have := advanceLt_dropped log (endT (log.getD i default) - w) li k
              (by omega) hk
            omega
        · refine le_min hmmu1 ?_
          have hdropli2 : ∀ k, k < advanceLt log (endT (log.getD i default) - w) li →
              endT (log.getD k default) ≤ endT (log.getD i default) - w := by
            intro k hk
            by_cases hkli : k < li
            · exact hinv k hkli h1
            · have := advanceLt_dropped log (endT (log.getD i default) - w) li k
                (by omega) hk
              omega
          have hB := muInWindow_drop log (endT (log.getD i default) - w)
            (endT (log.getD i default) - w + w) (by omega)
            (advanceLt log (endT (log.getD i default) - w) li) hdropli2 habut hdur
          rw [show endT (log.getD i default) - w + w = endT (log.getD i default)
            by ring] at hB
          rw [hB]
          exact hp2 i h1 hc
      · rw [mmuLoop_step_neg log w i li acc h1 hc]
        refine ih (i + 1) _ _ (by omega) ?_ hmmu1
        intro k hk hlen2
        have hmE := endT_mono_succ log habut hdur i (by omega)
        have := hinv k hk h1
        omega
    · rw [mmuLoop_stop log w i li acc h1]
      exact hacc

/-- Every delta edge's `x` is an endpoint of some input uniform, with the
right endpoint only occurring for wide uniforms. -/
theorem deltas_x_endpoint (us : List uniform) (hord : ∀ u ∈ us, u.l ≤ u.r) :
    ∀ d ∈ uniformDeltas us, ∃ u ∈ us, d.x = u.l ∨ (u.l < u.r ∧ d.x = u.r) := by
  intro d hd
  obtain ⟨u, hu, hbranch⟩ := List.mem_flatMap.mp hd
  refine ⟨u, hu, ?_⟩
  by_cases hlr : u.l = u.r
  · rw [if_pos hlr] at hbranch
    rcases List.mem_singleton.mp hbranch with rfl
    left
    rfl
  · rw [if_neg hlr] at hbranch
    have hlt : u.l < u.r := lt_of_le_of_ne (hord u hu) hlr
    rcases List.mem_cons.mp hbranch with rfl | hbranch2
    · left
      rfl
    · rcases List.mem_singleton.mp hbranch2 with rfl
      right
      exact ⟨hlt, rfl⟩

/-- Every input uniform contributes a delta edge at its left endpoint. -/
theorem deltas_left_mem (us : List uniform) :
    ∀ u ∈ us, ∃ d ∈ uniformDeltas us, d.x = u.l := by
  intro u hu
  by_cases hlr : u.l = u.r
  · refine ⟨⟨u.l, 0, u.area⟩, ?_, rfl⟩
    exact List.mem_flatMap.mpr ⟨u, hu, by rw [if_pos hlr]; exact List.mem_singleton.mpr rfl⟩
  · refine ⟨⟨u.l, u.area / (u.r - u.l), 0⟩, ?_, rfl⟩
    exact List.mem_flatMap.mpr ⟨u, hu, by rw [if_neg hlr]; exact List.mem_cons_self _ _⟩

/-- At the minimal `x`, every delta edge has nonnegative components, at least
one positive. -/
theorem deltas_at_min (us : List uniform) (hord : ∀ u ∈ us, u.l ≤ u.r)
    (hpos : ∀ u ∈ us, 0 < u.area) (m : ℚ)
    (hmin : ∀ e ∈ uniformDeltas us, m ≤ e.x) :
    ∀ e ∈ uniformDeltas us, e.x = m →
      0 ≤ e.y ∧ 0 ≤ e.dirac ∧ (0 < e.y ∨ 0 < e.dirac) := by
  intro e he hex
  obtain ⟨u, hu, hbranch⟩ := List.mem_flatMap.mp he
  by_cases hlr : u.l = u.r
  · rw [if_pos hlr] at hbranch
    rcases List.mem_singleton.mp hbranch with rfl
    exact ⟨le_refl 0, (hpos u hu).le, Or.inr (hpos u hu)⟩
  · rw [if_neg hlr] at hbranch
    have hlt : u.l < u.r := lt_of_le_of_ne (hord u hu) hlr
    have hh : 0 < u.area / (u.r - u.l) := div_pos (hpos u hu) (by linarith)
    rcases List.mem_cons.mp hbranch with rfl | hbranch2
    · exact ⟨hh.le, le_refl 0, Or.inl hh⟩
    · rcases List.mem_singleton.mp hbranch2 with rfl
      exfalso
      have hl_mem : (⟨u.l, u.area / (u.r - u.l), 0⟩ : edge) ∈ uniformDeltas us :=
        List.mem_flatMap.mpr ⟨u, hu, by rw [if_neg hlr]; exact List.mem_cons_self _ _⟩
      have hlem : m ≤ u.l := hmin _ hl_mem
      have hexr : u.r = m := hex
      linarith

/-- The merge loop keeps an accumulated entry with positive content at the
minimal `x` at the head of its output. -/
theorem mergeRun_head_x (m : ℚ) : ∀ (rest : List edge) (cur : edge), cur.x = m →
    0 ≤ cur.y → 0 ≤ cur.dirac → (0 < cur.y ∨ 0 < cur.dirac) →
    (∀ e ∈ rest, m ≤ e.x ∧ (e.x = m → 0 ≤ e.y ∧ 0 ≤ e.dirac)) →
    mergeRun cur rest ≠ [] ∧ ((mergeRun cur rest).headD default).x = m := by
  intro rest
  induction rest with
  | nil =>
    intro cur hx _ _ _ _
    rw [mergeRun]
    exact ⟨List.cons_ne_nil _ _, hx⟩
  | cons e rest ih =>
    intro cur hx hy hdirac hposc hrest
    rw [mergeRun]
    by_cases hex : e.x ≠ cur.x
    · rw [if_pos hex]
      have hnz : cur.y ≠ 0 ∨ cur.dirac ≠ 0 := by
        rcases hposc with h | h
        · exact Or.inl (ne_of_gt h)
        · exact Or.inr (ne_of_gt h)
      rw [if_pos hnz]
      exact ⟨List.cons_ne_nil _ _, hx⟩
    · rw [if_neg hex]
      push_neg at hex
      have hexm : e.x = m := by rw [hex, hx]
      have he := (hrest e (List.mem_cons_self _ _)).2 hexm
      refine ih ⟨cur.x, cur.y + e.y, cur.dirac + e.dirac⟩ hx (by simp; linarith [he.1])
        (by simp; linarith [he.2]) ?_
        (fun d hd => hrest d (List.mem_cons_of_mem _ hd))
      simp only []
      rcases hposc with h | h
      · exact Or.inl (by linarith [he.1])
      · exact Or.inr (by linarith [he.2])

/-- The running-sum pass preserves the head's `x`. -/
theorem toHeights_headD_x (L : List edge) (h : ℚ) (hne : L ≠ []) :
    ((toHeights h L).headD default).x = (L.headD default).x := by
  match L, hne with
  | d :: rest, _ => rfl

/-- The delta list of a nonempty uniform sum is nonempty. -/
theorem uniformDeltas_ne_nil (us : List uniform) (hne : us ≠ []) :
    uniformDeltas us ≠ [] := by
  match us, hne with
  | u :: us2, _ =>
    unfold uniformDeltas
    rw [List.flatMap_cons]
    by_cases hlr : u.l = u.r
    · rw [if_pos hlr]
      exact List.cons_ne_nil _ _
    · rw [if_neg hlr]
      exact List.cons_ne_nil _ _

/-- The first output edge of `uniformSumToEdges` sits at the minimum of the
input uniforms' left endpoints (for ordered inputs with positive areas): it
is attained by some input, and below every input's left endpoint. -/
theorem uniformSumToEdges_head_min (us : List uniform) (hne : us ≠ [])
    (hord : ∀ u ∈ us, u.l ≤ u.r) (hpos : ∀ u ∈ us, 0 < u.area) :
    (∃ u ∈ us, ((uniformSumToEdges us).headD default).x = u.l) ∧
    (∀ u ∈ us, ((uniformSumToEdges us).headD default).x ≤ u.l) := by
  have hperm : List.Perm (sortDeltas (uniformDeltas us)) (uniformDeltas us) :=
    List.perm_insertionSort _ _
  haveI hTot : IsTotal edge (fun a b : edge => a.x ≤ b.x) :=
    ⟨fun a b => le_total a.x b.x⟩
  haveI hTrans : IsTrans edge (fun a b : edge => a.x ≤ b.x) :=
    ⟨fun a b c hab hbc => le_trans hab hbc⟩
  have hsorted : List.Sorted (fun a b : edge => a.x ≤ b.x)
      (sortDeltas (uniformDeltas us)) := List.sorted_insertionSort _ _
  have hDne := uniformDeltas_ne_nil us hne
  cases hS : sortDeltas (uniformDeltas us) with
  | nil =>
    exfalso
    have hlen := hperm.length_eq
    rw [hS] at hlen
    exact hDne (List.length_eq_zero.mp hlen.symm)
  | cons d rest =>
    rw [hS] at hsorted hperm
    have hdmem : d ∈ uniformDeltas us := hperm.mem_iff.mp (List.mem_cons_self _ _)
    have hmin : ∀ e ∈ uniformDeltas us, d.x ≤ e.x := by
      intro e he
      rcases List.mem_cons.mp (hperm.mem_iff.mpr he) with rfl | he2
      · exact le_refl _
      · exact (List.sorted_cons.mp hsorted).1 e he2
    have hdpos := deltas_at_min us hord hpos d.x hmin d hdmem rfl
    have hhead : ((uniformSumToEdges us).headD default).x = d.x := by
      rw [uniformSumToEdges, if_neg hne, hS]
      have hmerge := mergeRun_head_x d.x rest d rfl hdpos.1 hdpos.2.1 hdpos.2.2
        (by
          intro e he
          have hemem : e ∈ uniformDeltas us :=
            hperm.mem_iff.mp (List.mem_cons_of_mem _ he)
          refine ⟨(List.sorted_cons.mp hsorted).1 e he, fun hexm => ?_⟩
          have := deltas_at_min us hord hpos d.x hmin e hemem hexm
          exact ⟨this.1, this.2.1⟩)
      rw [toHeights_headD_x _ _ hmerge.1]
      exact hmerge.2
    rw [hhead]
    constructor
    · obtain ⟨u, hu, hul⟩ := deltas_x_endpoint us hord d hdmem
      rcases hul with h | h
      · exact ⟨u, hu, h⟩
      · exfalso
        obtain ⟨dl, hdl, hdlx⟩ := deltas_left_mem us u hu
        have := hmin dl hdl
        rw [hdlx] at this
        rw [h.2] at this
        linarith [h.1]
    · intro u hu
      obtain ⟨dl, hdl, hdlx⟩ := deltas_left_mem us u hu
      have := hmin dl hdl
      rw [hdlx] at this
      exact this

theorem headD_eq_getD0 (log : List Phase) (hne : log ≠ []) :
    log.headD default = log.getD 0 default := by
  match log, hne with
  | p :: rest, _ => rfl

/-- Every probe position's window lies inside the log's extent. -/
theorem probePos_range (log : List Phase) (habut : PhasesAbut log)
    (hdur : ∀ p ∈ log, 0 ≤ p.Duration) (hne : log ≠ []) (w x : ℤ)
    (hPP : ProbePos log w x) :
    (log.headD default).Begin ≤ x ∧ x + w ≤ endT (log.getLastD default) := by
  obtain ⟨j, hj, hc | hc⟩ := hPP
  · constructor
    · rw [headD_eq_getD0 log hne, hc.1]
      have hmono := begin_mono log habut hdur j 0 (by omega)
      simpa using hmono
    · exact hc.2
  · refine ⟨hc.2, ?_⟩
    have := endT_le_last log habut hdur hne j hj
    omega

/-- The whole-log utilization at any probe position is at most one. -/
theorem probePos_le_one (log : List Phase) (habut : PhasesAbut log)
    (hdur : ∀ p ∈ log, 0 ≤ p.Duration) (hgmp : ∀ p ∈ log, 1 ≤ p.Gomaxprocs)
    (hgcp : ∀ p ∈ log, 0 ≤ p.GCProcs) (hne : log ≠ []) (w : ℤ) (hw : 0 < w)
    (x : ℤ) (hPP : ProbePos log w x) : muF log x (x + w) ≤ 1 := by
  have hr := probePos_range log habut hdur hne w x hPP
  exact muF_le_one log x (x + w)
    (cleanT_pos log habut hdur hgmp hne x (x + w) hr.1 (by omega) hr.2)
    (cleanG_nonneg _ _ log hgmp hgcp)

/-- The `MMU` loop's result is bounded by the whole-log utilization at every
probe position. -/
theorem mmuLoop_le_probePos (log : List Phase) (habut : PhasesAbut log)
    (hdur : ∀ p ∈ log, 0 ≤ p.Duration) (w : ℤ) (hw : 0 < w) (x : ℤ)
    (hPP : ProbePos log w x) :
    mmuLoop log w 0 0 1 ≤ muF log x (x + w) := by
  obtain ⟨j, hj, hc | hc⟩ := hPP
  · have hfit : (log.getD j default).Begin + w ≤ endT (log.getLastD default) := by
      rw [← hc.1]
      exact hc.2
    have h1 := mmuLoop_le_probe1 log w log.length 0 0 1 j (by omega) (by omega) hj hfit
    have hB := muInWindow_drop log (log.getD j default).Begin
      ((log.getD j default).Begin + w) (by omega) j
      (fun k hk => endT_prefix_le_begin log habut hdur k j hk hj) habut hdur
    rw [hB] at h1
    rw [hc.1]
    exact h1
  · have hcond : (log.headD default).Begin ≤ endT (log.getD j default) - w := by
      have := hc.2
      omega
    have h2 := mmuLoop_le_probe2 log habut hdur w hw log.length 0 0 1 j (by omega)
      (by omega) hj hcond (fun k hk => absurd hk (Nat.not_lt_zero k))
    rw [hc.1]
    rw [show endT (log.getD j default) - w + w = endT (log.getD j default) by ring]
    exact h2

/-- The main equivalence, stated over the raw log: the `MMU` loop's result
equals the `x` of the first edge of the mutator utilization distribution
built by the sliding-window loop. -/
theorem mmu_loop_eq_head (log : List Phase) (habut : PhasesAbut log)
    (hdur : ∀ p ∈ log, 0 ≤ p.Duration) (hgmp : ∀ p ∈ log, 1 ≤ p.Gomaxprocs)
    (hgcp : ∀ p ∈ log, 0 ≤ p.GCProcs) (hne : log ≠ []) (w : ℤ) (hw : 0 < w)
    (hwle : w ≤ endT (log.getLastD default) - (log.headD default).Begin)
    (first last lastBegin : ℤ) (fuel : Nat)
    (hfirst : first = (log.headD default).Begin)
    (hlast : last = endT (log.getLastD default))
    (hlbdef : lastBegin = last - w)
    (hfuel : fuel = (lastBegin - first).toNat + 1) :
    mmuLoop log w 0 0 1 =
      ((uniformSumToEdges
        (if first = lastBegin
         then mudLoop log w first lastBegin fuel first 0 0 ++
           [⟨muInWindow first last log, muInWindow first last log, 1⟩]
         else mudLoop log w first lastBegin fuel first 0 0)).headD default).x := by
  subst hfirst hlast hlbdef hfuel
  have hpos := List.length_pos.mpr hne
  by_cases hdeg : (log.headD default).Begin = endT (log.getLastD default) - w
  · rw [if_pos hdeg]
    have hloopnil : mudLoop log w ((log.headD default).Begin)
        (endT (log.getLastD default) - w)
        ((endT (log.getLastD default) - w - (log.headD default).Begin).toNat + 1)
        ((log.headD default).Begin) 0 0 = [] := by
      rw [mudLoop, if_neg (by omega)]
    rw [hloopnil, List.nil_append]
    have hhm := uniformSumToEdges_head_min
      [⟨muInWindow ((log.headD default).Begin) (endT (log.getLastD default)) log,
        muInWindow ((log.headD default).Begin) (endT (log.getLastD default)) log, 1⟩]
      (List.cons_ne_nil _ _)
      (by intro u hu; rcases List.mem_singleton.mp hu with rfl; exact le_refl _)
      (by intro u hu; rcases List.mem_singleton.mp hu with rfl; norm_num)
    obtain ⟨⟨u, hu, hux⟩, _⟩ := hhm
    rcases List.mem_singleton.mp hu with rfl
    rw [hux]
    have hU : muInWindow ((log.headD default).Begin) (endT (log.getLastD default)) log =
        muF log ((log.headD default).Begin) ((log.headD default).Begin + w) := by
      have hdrop := muInWindow_drop log ((log.headD default).Begin)
        ((log.headD default).Begin + w) (by omega) 0
        (fun k hk => absurd hk (Nat.not_lt_zero k)) habut hdur
      rw [List.drop_zero] at hdrop
      have harg : (log.headD default).Begin + w = endT (log.getLastD default) := by omega
      rw [← harg]
      exact hdrop
    show mmuLoop log w 0 0 1 =
      muInWindow ((log.headD default).Begin) (endT (log.getLastD default)) log
    rw [hU]
    refine le_antisymm ?_ ?_
    · apply mmuLoop_le_probePos log habut hdur w hw
      exact ⟨0, by omega, Or.inl ⟨(headD_eq_getD0 log hne) ▸ rfl, by omega⟩⟩
    · apply mmuLoop_ge log habut hdur w hw _ ?hp1 ?hp2 log.length 0 0 1 (by omega)
        (fun k hk _ => absurd hk (Nat.not_lt_zero k)) ?hacc
      case hp1 =>
        intro j hj hfit
        have hBj : (log.getD j default).Begin = (log.headD default).Begin := by
          have hmono := begin_mono log habut hdur j 0 (by omega)
          simp only [Nat.zero_add] at hmono
          rw [headD_eq_getD0 log hne]
          rw [headD_eq_getD0 log hne] at hdeg
          omega
        rw [hBj]
      case hp2 =>
        intro j hj hfit
        have hEj : endT (log.getD j default) = (log.headD default).Begin + w := by
          have := endT_le_last log habut hdur hne j hj
          omega
        rw [hEj, show (log.headD default).Begin + w - w = (log.headD default).Begin
          by ring]
      case hacc =>
        apply muF_le_one
        · exact cleanT_pos log habut hdur hgmp hne _ _ (le_refl _) (by omega) (by omega)
        · exact cleanG_nonneg _ _ log hgmp hgcp
  · rw [if_neg hdeg]
    have hflb : (log.headD default).Begin < endT (log.getLastD default) - w := by
      omega
    have hprops := mudLoop_props log w ((log.headD default).Begin)
      (endT (log.getLastD default) - w) habut hdur hgmp hne hw rfl rfl hflb
      ((endT (log.getLastD default) - w - (log.headD default).Begin).toNat + 1)
      ((log.headD default).Begin) 0 0 (le_refl _) (by omega)
      (fun k hk => absurd hk (Nat.not_lt_zero k)) (le_refl 0)
      (fun k hk => absurd hk (Nat.not_lt_zero k)) (Nat.zero_le _) (by omega)
      ⟨0, by omega, Or.inl ⟨by rw [headD_eq_getD0 log hne], by omega⟩⟩
    have hne2 : mudLoop log w ((log.headD default).Begin)
        (endT (log.getLastD default) - w)
        ((endT (log.getLastD default) - w - (log.headD default).Begin).toNat + 1)
        ((log.headD default).Begin) 0 0 ≠ [] := by
      rw [mudLoop, if_pos hflb]
      exact List.cons_ne_nil _ _
    obtain ⟨⟨u0, hu0, hu0x⟩, hall⟩ := uniformSumToEdges_head_min _ hne2
      (fun u hu => (hprops.1 u hu).2.1) (fun u hu => (hprops.1 u hu).1)
    have hall2 : ∀ u ∈ mudLoop log w ((log.headD default).Begin)
        (endT (log.getLastD default) - w)
        ((endT (log.getLastD default) - w - (log.headD default).Begin).toNat + 1)
        ((log.headD default).Begin) 0 0, u0.l ≤ u.l :=
      fun u hu => hu0x ▸ hall u hu
    rw [hu0x]
    obtain ⟨-, -, b1, b2, hPP1, hPP2, hu0l⟩ := hprops.1 u0 hu0
    apply le_antisymm
    · rw [hu0l]
      exact le_min (mmuLoop_le_probePos log habut hdur w hw b1 hPP1)
        (mmuLoop_le_probePos log habut hdur w hw b2 hPP2)
    · apply mmuLoop_ge log habut hdur w hw u0.l ?hp1 ?hp2 log.length 0 0 1 (by omega)
        (fun k hk _ => absurd hk (Nat.not_lt_zero k)) ?hacc
      case hp1 =>
        intro j hj hfit
        have hrange1 : (log.headD default).Begin ≤ (log.getD j default).Begin := by
          rw [headD_eq_getD0 log hne]
          have hmono := begin_mono log habut hdur j 0 (by omega)
          simpa using hmono
        obtain ⟨u, hu, hul⟩ := hprops.2 ((log.getD j default).Begin) hrange1
          (by omega) hflb
        exact le_trans (hall2 u hu) hul
      case hp2 =>
        intro j hj hfit
        have hrange2 : endT (log.getD j default) - w ≤
            endT (log.getLastD default) - w := by
          have := endT_le_last log habut hdur hne j hj
          omega
        obtain ⟨u, hu, hul⟩ := hprops.2 (endT (log.getD j default) - w) hfit
          hrange2 hflb
        rw [show endT (log.getD j default) - w + w = endT (log.getD j default)
          by ring] at hul
        exact le_trans (hall2 u hu) hul
      case hacc =>
        rw [hu0l]
        exact le_trans (min_le_left _ _)
          (probePos_le_one log habut hdur hgmp hgcp hne w hw b1 hPP1)

/-- C1: for every `GcStats` with program times and a nonempty wellformed
phase log (abutting phases, nonnegative durations, at least one processor per
phase, nonnegative GC processor counts) and every window size `w` in the
valid range `0 < w ≤ last - first`, the fast minimum mutator utilization
`MMU(w)` equals the 0th percentile of the mutator utilization distribution,
`MutatorUtilizationDistribution(w).InvCDF(0)`, exactly. -/
theorem mmu_eq_mud_invcdf (s : GcStats) (w : ℤ)
    (hpt : s.HaveProgTimes = true)
    (hne : s.log ≠ [])
    (habut : PhasesAbut s.log)
    (hdur : ∀ p ∈ s.log, 0 ≤ p.Duration)
    (hgmp : ∀ p ∈ s.log, 1 ≤ p.Gomaxprocs)
    (hgcp : ∀ p ∈ s.log, 0 ≤ p.GCProcs)
    (hw : 0 < w)
    (hwle : w ≤ endT (s.log.getLastD default) - (s.log.headD default).Begin) :
    s.MMU w = (s.MutatorUtilizationDistribution w).InvCDF 0 := by
  have hcore := mmu_loop_eq_head s.log habut hdur hgmp hgcp hne w hw hwle
    ((s.log.headD default).Begin) (endT (s.log.getLastD default))
    (endT (s.log.getLastD default) - w)
    ((endT (s.log.getLastD default) - w - (s.log.headD default).Begin).toNat + 1)
    rfl rfl rfl rfl
  rw [GcStats.MMU, if_neg (by omega : ¬ w ≤ 0)]
  rw [GcStats.MutatorUtilizationDistribution, if_neg hne]
  simp only []
  rw [min_eq_left hwle]
  rw [MUD.InvCDF]
  simp only []
  rw [if_pos (le_refl (0 : ℚ))]
  exact hcore

/-- Witness for C1: on the quarters test log at window 25ns, the fast MMU
and the 0th percentile of the MUD agree. -/
theorem mmu_eq_mud_invcdf_witness :
    statsQuarters.MMU 25 = (statsQuarters.MutatorUtilizationDistribution 25).InvCDF 0 :=
  mmu_eq_mud_invcdf statsQuarters 25 rfl (by simp [statsQuarters])
    (by simp [PhasesAbut, statsQuarters, List.chain'_cons, List.chain'_singleton, abutRel])
    (by intro p hp; fin_cases hp <;> decide)
    (by intro p hp; fin_cases hp <;> decide)
    (by intro p hp; fin_cases hp <;> decide)
    (by norm_num) (by decide)

end GcStatsModel
